import Mathlib

/-!
# Verification of hive-py core algorithms

A shallow embedding of the core algorithmic parts of the `hive-py`
repository (`util/geo.py`, `util/stitching.py`, and the geometry entry
points used by `imagery/query.py`), together with theorems settling the
frozen claims about the natural-language specification.

Modelling conventions:

* Machine floats are modelled as exact rationals (`ℚ`); timestamps
  (ISO-8601 UTC strings in the source, compared lexicographically and
  subtracted as `datetime`s) are modelled as integer epoch seconds, which
  preserves both the ordering and the subtraction semantics.
* Third-party library primitives that the source calls but that are not
  part of the repository (geographiclib's geodesic inverse `azi2`, pyproj's
  Mercator projection, scipy's KDTree ball query, the `area` package, and
  the timezone/day lookup) are taken as explicit function parameters of the
  embedding; nothing about their values is assumed unless a theorem states
  the assumption as a hypothesis.  Concrete instances used by witnesses are
  marked `Modelled from the spec:` in their doc comments.
* Python's stable `sorted` is modelled by a stable insertion sort;
  `dict` grouping (insertion ordered) is modelled by an association list
  that preserves first-encounter order; iteration order of a Python `set`
  of small ints (`remaining.pop()`) is modelled by taking the head of an
  ordered list of the remaining indices.
* Fallible code (out-of-range list indexing, `set.remove` on a missing
  element) is modelled with `Except`; a separate error value models
  running out of fuel, i.e. non-termination of the source `while` loop.
-/

namespace HivePy



/-- Decidable equality for `Except`, used to evaluate the embedding on
concrete inputs. -/
instance exceptDecEq {ε α : Type} [DecidableEq ε] [DecidableEq α] :
    DecidableEq (Except ε α)
  | .error e, .error f =>
    if h : e = f then .isTrue (by rw [h]) else .isFalse (fun hc => h (by injection hc))
  | .error _, .ok _ => .isFalse (by intro hc; injection hc)
  | .ok _, .error _ => .isFalse (by intro hc; injection hc)
  | .ok a, .ok b =>
    if h : a = b then .isTrue (by rw [h]) else .isFalse (fun hc => h (by injection hc))

/-! ## Generic list helpers: stable sort by an integer key -/

/-- Stable insertion of `a` into `l`: `a` goes before the first element with a
strictly larger key, hence after all elements with an equal key (this is the
behaviour of Python's stable `sorted`). -/
def sInsert (key : α → ℤ) (a : α) : List α → List α
  | [] => [a]
  | b :: bs => if key a < key b then a :: b :: bs else b :: sInsert key a bs

/-- Stable sort by an integer key; models Python's `sorted(l, key=...)`. -/
def sortByKey (key : α → ℤ) : List α → List α
  | [] => []
  | a :: as => sInsert key a (sortByKey key as)

/-! ## Generic grouping (Python `dict.setdefault` + append, insertion ordered) -/

/-- Add one element to an insertion-ordered association list of groups, the way
`d.setdefault(k, []); d[k].append(x)` grows a Python dict. -/
def addToGroups [DecidableEq κ] (key : α → κ) :
    List (κ × List α) → α → List (κ × List α)
  | [], a => [(key a, [a])]
  | (k, xs) :: rest, a =>
    if k = key a then (k, xs ++ [a]) :: rest else (k, xs) :: addToGroups key rest a

/-- Group a list by a key, preserving first-encounter order of keys and
within-group element order; models the `by_sequence` / `seq_by_day` dicts. -/
def groupByKey [DecidableEq κ] (key : α → κ) (l : List α) : List (κ × List α) :=
  l.foldl (addToGroups key) []

/-! ## `util/geo.py`: pure angular helpers (lines 143-154) -/

/-- `abs_angular_delta(a, b)` (geo.py lines 143-145): smallest absolute
difference between two azimuths, wrapping across ±360. -/
def abs_angular_delta (a b : ℚ) : ℚ :=
  let delta := |a - b|
  if delta ≤ 180 then delta else 360 - delta

/-- A coordinate as it appears in GeoJSON coordinate lists: `(lon, lat)`. -/
abbrev Coord : Type := ℚ × ℚ

section Geo

/- `azi2` is the abstract parameter modelling geographiclib's
`Geodesic.WGS84.Inverse(lat1, lon1, lat2, lon2)['azi2']`: the forward azimuth
at the second point of the geodesic from the first point to the second. -/
variable (azi2 : ℚ → ℚ → ℚ → ℚ → ℚ)

/-- `angle_between_segments(p0, p1, p2)` (geo.py lines 147-154): turn angle at
`p1` between segment `p0→p1` and segment `p1→p2`, computed from the two
geodesic arrival azimuths.  Coordinates are `(lon, lat)` pairs. -/
def angle_between_segments (p0 p1 p2 : Coord) : ℚ :=
  abs_angular_delta (azi2 p0.2 p0.1 p1.2 p1.1) (azi2 p1.2 p1.1 p2.2 p2.1)

/-- Loop body of `explode_sharp_angles` (geo.py lines 232-243): walks the tail
of the coordinate list carrying the previous two points, the current sub-line
and the finished sub-lines. -/
def explodeGo (t : ℚ) : Coord → Coord → List Coord → List Coord →
    List (List Coord) → List (List Coord)
  | _, _, [], curLine, lines => lines ++ [curLine]
  | p2, p1, c :: cs, curLine, lines =>
    if angle_between_segments azi2 p2 p1 c ≤ t then
      explodeGo t p1 c cs (curLine ++ [c]) lines
    else
      explodeGo t p1 c cs [p1, c] (lines ++ [curLine, [p1]])

/-- `explode_sharp_angles(coords, threshold=45)` (geo.py lines 225-245):
split a coordinate list at interior vertices whose turn angle exceeds the
threshold, emitting each sharp corner as its own single-point sub-line. -/
def explode_sharp_angles (coords : List Coord) (t : ℚ := 45) : List (List Coord) :=
  match coords with
  | c0 :: c1 :: c2 :: cs => explodeGo azi2 t c0 c1 (c2 :: cs) [c0, c1] []
  | _ => [coords]

/-- Functional companion of `explodeGo`: given the previous two points and the
remaining points, return the continuation of the current sub-line and the list
of all later sub-lines. -/
def splitRec (t : ℚ) : Coord → Coord → List Coord → List Coord × List (List Coord)
  | _, _, [] => ([], [])
  | p2, p1, c :: cs =>
    let r := splitRec t p1 c cs
    if angle_between_segments azi2 p2 p1 c ≤ t then (c :: r.1, r.2)
    else ([], [p1] :: (p1 :: c :: r.1) :: r.2)

/-! ### Index-based description of the sharp-angle split (spec side)

`splitAtSharp` is the claim's description of `explode_sharp_angles`: collect
the interior vertex indices whose turn angle exceeds the threshold, and
assemble the corner-to-corner slices with each corner also emitted as its own
single-point sub-line. -/

/-- The slice `l[a..b]`, both endpoints included. -/
def listSlice (l : List α) (a b : ℕ) : List α := (l.drop a).take (b + 1 - a)

/-- Whether interior vertex `j` of the coordinate list is a sharp corner:
the turn angle there exceeds the threshold. -/
def isSharp (s : List Coord) (t : ℚ) (j : ℕ) : Bool :=
  decide (1 ≤ j) && decide (j + 1 < s.length) &&
    decide (t < angle_between_segments azi2
      (s.getD (j - 1) (0, 0)) (s.getD j (0, 0)) (s.getD (j + 1) (0, 0)))

/-- The (sorted) list of sharp interior vertex indices. -/
def sharpIdxs (s : List Coord) (t : ℚ) : List ℕ :=
  (List.range s.length).filter (isSharp azi2 s t)

/-- Assemble the sub-lines from a starting index and the (sorted) list of the
sharp indices after it: slices from corner to corner (corners included on both
sides), with every corner also a single-point sub-line in between. -/
def specAssemble (s : List Coord) : ℕ → List ℕ → List (List Coord)
  | start, [] => [listSlice s start (s.length - 1)]
  | start, j :: js =>
    listSlice s start j :: [s.getD j (0, 0)] :: specAssemble s j js

/-- The claim's description of the sharp-angle split. -/
def splitAtSharp (s : List Coord) (t : ℚ) : List (List Coord) :=
  if s.length < 3 then [s] else specAssemble s 0 (sharpIdxs azi2 s t)

end Geo



/-! ## `util/stitching.py`: data model -/

/-- A GPS position, `{lat, lon}` (stitching.py frames carry `position`). -/
structure Position where
  lat : ℚ
  lon : ℚ
deriving DecidableEq, Repr, Inhabited

/-- A frame record as consumed by `stitch`: capture-sequence id, in-sequence
index, timestamp (ISO-8601 UTC in the source, modelled as epoch seconds),
position, and the `heading` key written by the post-process (absent = `none`).
Other keys of the frame dict are opaque passthrough and are not modelled. -/
structure Frame where
  sequence : ℕ
  idx : ℤ
  timestamp : ℤ
  position : Position
  heading : Option ℚ
deriving DecidableEq, Repr, Inhabited

/-- `DEFAULT_STITCH_MAX_DISTANCE = 30` (stitching.py line 17). -/
def DEFAULT_STITCH_MAX_DISTANCE : ℚ := 30

/-- `DEFAULT_STITCH_MAX_LAG = 360` (stitching.py line 18). -/
def DEFAULT_STITCH_MAX_LAG : ℤ := 360

/-- `DEFAULT_STITCH_MAX_ANGLE = 100` (stitching.py line 19). -/
def DEFAULT_STITCH_MAX_ANGLE : ℚ := 100

/-- `seqs_lag(seq_a, seq_b)` (stitching.py lines 58-62): Python computes
`(t1 - t0).seconds` on the `timedelta` between the last frame of `seq_a` and
the first frame of `seq_b`; `timedelta.seconds` is the seconds field of the
normalized timedelta, i.e. the difference modulo 86400 with a nonnegative
result, which is `Int.emod` for the positive modulus. -/
def seqs_lag (seq_a seq_b : List Frame) : ℤ :=
  let t0 := (seq_a.getLastD default).timestamp
  let t1 := (seq_b.headD default).timestamp
  (t1 - t0) % 86400

/-- Errors of the stitching embedding: `idxErr` models a Python
`IndexError`/`KeyError` (out-of-range sequence access), `noFuel` models
non-termination of the `while` loop. -/
inductive StitchErr
  | idxErr
  | noFuel
deriving DecidableEq, Repr

/-- State of the greedy clustering `while` loop of `cluster_seqs`
(stitching.py lines 109-126): the unclustered sequence indices, the finished
clusters, the open cluster, the index of the cluster's current head sequence,
the planar position of the head's last frame, and the `cluster_done` flag. -/
structure CState where
  remaining : List ℕ
  clusters : List (List (List Frame))
  cluster : List (List Frame)
  curSeq : ℕ
  lastPos : ℚ × ℚ
  clusterDone : Bool
deriving DecidableEq, Repr

section Stitch

/- Abstract library parameters of the stitcher:
`azi2 lat1 lon1 lat2 lon2` models geographiclib's
`Geodesic.WGS84.Inverse(lat1, lon1, lat2, lon2)['azi2']`;
`merc` models the WGS84→Web-Mercator projection (pyproj);
`ball seqs p r` models `build_kdtree(seqs)` followed by
`tree.query_ball_point(p, r, return_sorted=True)` (scipy), which returns
candidate indices into `seqs`;
`dayOf pos ts` models timezone lookup at `pos` (timezonefinder) followed by
formatting `ts` as a local calendar day (`strftime('%Y-%m-%d')`). -/
variable (azi2 : ℚ → ℚ → ℚ → ℚ → ℚ) (merc : Position → ℚ × ℚ)
  (ball : List (List Frame) → ℚ × ℚ → ℚ → List ℕ)
  (dayOf : Position → ℤ → ℤ)

/-- `frame_azi(a, b)` (stitching.py lines 64-74): the geodesic `azi2` from
frame `a`'s position to frame `b`'s position. -/
def frame_azi (a b : Frame) : ℚ :=
  azi2 a.position.lat a.position.lon b.position.lat b.position.lon

/-- `seqs_azi_delta(seq_a, seq_b)` (stitching.py lines 76-96): angular delta
between the bearing of `seq_a`'s last segment and `seq_b`'s first segment.
Accesses `seq_a[-2]`, `seq_a[-1]`, `seq_b[0]`, `seq_b[1]`; on a sequence of
fewer than 2 frames the Python raises `IndexError`, modelled as `none`. -/
def seqs_azi_delta (seq_a seq_b : List Frame) : Option ℚ :=
  if 2 ≤ seq_a.length ∧ 2 ≤ seq_b.length then
    let a0 := (seq_a.getD (seq_a.length - 2) default).position
    let a1 := (seq_a.getLastD default).position
    let b0 := (seq_b.headD default).position
    let b1 := (seq_b.getD 1 default).position
    some (abs_angular_delta (azi2 a0.lat a0.lon a1.lat a1.lon)
      (azi2 b0.lat b0.lon b1.lat b1.lon))
  else none

/-- Lines 121-126 of `cluster_seqs`: when `cluster_done` is set, flush the
open cluster, pop an arbitrary remaining index (modelled: the list head) and
start a new cluster there.  (Unreachable with empty `remaining` because the
`while` guard holds; returning `st` there is a harmless default.) -/
def clusterFlush (seqs : List (List Frame)) (st : CState) : CState :=
  match st.remaining with
  | [] => st
  | r :: rs =>
    { remaining := rs
      clusters := st.clusters ++ [st.cluster]
      cluster := [seqs.getD r []]
      curSeq := r
      lastPos := merc ((seqs.getD r []).getLastD default).position
      clusterDone := false }

/-- The `for i in candidate_idxs` loop of `cluster_seqs` (lines 135-150):
close the cluster on a lag failure, skip the candidate on a bearing failure,
append the first candidate passing both tests. -/
def tryCandidates (seqs : List (List Frame)) (maxLag : ℤ) (maxAz : ℚ) :
    List ℕ → CState → Except StitchErr CState
  | [], st => .ok st
  | i :: rest, st =>
    let seq := seqs.getD i []
    let lag := seqs_lag (seqs.getD st.curSeq []) seq
    if maxLag < lag then .ok { st with clusterDone := true }
    else
      match seqs_azi_delta azi2 (seqs.getD st.curSeq []) seq with
      | none => .error .idxErr
      | some delta =>
        if maxAz < delta then tryCandidates seqs maxLag maxAz rest st
        else .ok { st with
          remaining := st.remaining.erase i
          curSeq := i
          cluster := st.cluster ++ [seq]
          lastPos := merc (seq.getLastD default).position }

/-- One iteration of the `while remaining` loop of `cluster_seqs`
(lines 120-150). -/
def stepBody (seqs : List (List Frame)) (maxDist : ℚ) (maxLag : ℤ) (maxAz : ℚ)
    (st : CState) : Except StitchErr CState :=
  let st1 := if st.clusterDone then clusterFlush merc seqs st else st
  let cand := (ball seqs st1.lastPos maxDist).filter (fun i => decide (i ∈ st1.remaining))
  if cand.isEmpty then .ok { st1 with clusterDone := true }
  else tryCandidates azi2 merc seqs maxLag maxAz cand st1

/-- The `while remaining` loop, with fuel: `.error .noFuel` when the loop does
not terminate within `fuel` iterations. -/
def clusterLoop (seqs : List (List Frame)) (maxDist : ℚ) (maxLag : ℤ) (maxAz : ℚ) :
    ℕ → CState → Except StitchErr CState
  | fuel, st =>
    if st.remaining.isEmpty then .ok st
    else
      match fuel with
      | 0 => .error .noFuel
      | n + 1 =>
        match stepBody azi2 merc ball seqs maxDist maxLag maxAz st with
        | .ok st2 => clusterLoop seqs maxDist maxLag maxAz n st2
        | .error e => .error e

/-- `cluster_seqs(seqs, ...)` (stitching.py lines 98-153).  A single sequence
short-circuits to one cluster; on an empty input the Python raises (`KeyError`
from `remaining.remove(0)`), modelled as `.error .idxErr`. -/
def cluster_seqs (fuel : ℕ) (seqs : List (List Frame)) (maxDist : ℚ) (maxLag : ℤ)
    (maxAz : ℚ) : Except StitchErr (List (List (List Frame))) :=
  if seqs.length = 1 then .ok [seqs]
  else
    match seqs with
    | [] => .error .idxErr
    | s0 :: _ =>
      let st0 : CState :=
        { remaining := (List.range seqs.length).drop 1
          clusters := []
          cluster := [s0]
          curSeq := 0
          lastPos := merc (s0.getLastD default).position
          clusterDone := false }
      (clusterLoop azi2 merc ball seqs maxDist maxLag maxAz fuel st0).map
        (fun st => st.clusters ++ [st.cluster])

/-- Tail of the heading post-process (stitching.py lines 211-213 for `i ≥ 2`):
each frame gets `heading = frame_azi(frame, previous frame)`. -/
def headsGo : Frame → List Frame → List Frame
  | _, [] => []
  | prev, c :: cs =>
    { c with heading := some (frame_azi azi2 c prev) } :: headsGo c cs

/-- The heading post-process of `stitch` (stitching.py lines 210-215): for
`i ≥ 1`, `sequence[i]['heading'] = frame_azi(sequence[i], sequence[i-1])`,
and at `i == 1` the same value is also written to `sequence[0]`. -/
def assign_headings (p : List Frame) : List Frame :=
  match p with
  | [] => []
  | [f] => [f]
  | f0 :: f1 :: rest =>
    let h := frame_azi azi2 f1 f0
    { f0 with heading := some h } :: { f1 with heading := some h } :: headsGo azi2 f1 rest

/-- The multi-frame sequences built by `stitch` (lines 166-178): frames sorted
by timestamp, grouped by sequence id (dict insertion order), groups of more
than one frame kept and sorted by `idx`. -/
def stitchSeqs (frames : List Frame) : List (List Frame) :=
  (((groupByKey (fun f => f.sequence) (sortByKey (fun f => f.timestamp) frames)).map
    Prod.snd).filter (fun s => decide (1 < s.length))).map (sortByKey (fun f => f.idx))

/-- The singleton sequences diverted to `skip_stitching` (lines 179-180). -/
def stitchSkip (frames : List Frame) : List (List (List Frame)) :=
  (((groupByKey (fun f => f.sequence) (sortByKey (fun f => f.timestamp) frames)).map
    Prod.snd).filter (fun s => ! decide (1 < s.length))).map (fun s => [s])

/-- The per-day sequence lists handed to `cluster_seqs` (lines 182-202):
group the multi-frame sequences by the local calendar day of their first
frame (timezone taken from the first frame of the sorted frame list), then
sort each day's sequences by start timestamp. -/
def stitchDayGroups (frames : List Frame) : List (List (List Frame)) :=
  ((groupByKey (fun s => dayOf ((sortByKey (fun f => f.timestamp) frames).headD
      default).position ((s.headD default).timestamp)) (stitchSeqs frames)).map
    Prod.snd).map (sortByKey (fun s => (s.headD default).timestamp))

/-- `cluster_seqs` over each day's sequence list, concatenating the resulting
clusters (lines 199-202). -/
def clusterAll (fuel : ℕ) (maxDist : ℚ) (maxLag : ℤ) (maxAz : ℚ) :
    List (List (List Frame)) → Except StitchErr (List (List (List Frame)))
  | [] => .ok []
  | g :: gs =>
    match cluster_seqs azi2 merc ball fuel g maxDist maxLag maxAz with
    | .error e => .error e
    | .ok cs =>
      match clusterAll fuel maxDist maxLag maxAz gs with
      | .error e => .error e
      | .ok rest => .ok (cs ++ rest)

/-- `stitch(frames, ...)` (stitching.py lines 155-217). -/
def stitch (fuel : ℕ) (frames : List Frame)
    (maxDist : ℚ := DEFAULT_STITCH_MAX_DISTANCE)
    (maxLag : ℤ := DEFAULT_STITCH_MAX_LAG)
    (maxAz : ℚ := DEFAULT_STITCH_MAX_ANGLE) :
    Except StitchErr (List (List Frame)) :=
  if frames.isEmpty then .ok []
  else
    match clusterAll azi2 merc ball fuel maxDist maxLag maxAz (stitchDayGroups dayOf frames) with
    | .error e => .error e
    | .ok clusters =>
      .ok ((clusters.map (fun c => c.flatten)).map (assign_headings azi2) ++
        (stitchSkip frames).map (fun c => c.flatten))

end Stitch



/-- Modelled from the spec: the geodesic azimuth `azi2` of
`geodesicAzimuth` restricted to equatorial points — on the WGS84 ellipsoid the
equator is a geodesic, so the azimuth between two distinct points of latitude
0 is exactly 90° (eastward) or −90° (westward, geographiclib normalizes
azimuths to (−180°, 180°]).  Used only at equatorial inputs.  (The geodesic
solver itself is third-party library code, absent from the repository.) -/
def aziEq2 (lat1 lon1 lat2 lon2 : ℚ) : ℚ :=
  if lon1 < lon2 then 90 else if lon2 < lon1 then -90 else 0

/-! ## `util/geo.py`: `katana` (lines 105-141) and `chunk_by_area` (315-336)

Shapely geometries and their operations (`bounds`, `intersection`, `geoms`,
`box`, type tests) are third-party library objects; the embedding is
parameterized over an abstract geometry type `G` with these operations, and
any semantic facts about them that a theorem needs are stated as explicit
hypotheses. -/

/-- The shapely geometry classes `katana` branches on. -/
inductive GKind
  | point
  | lineString
  | polygon
  | multiPolygon
  | collection
  | other
deriving DecidableEq, Repr

/-- A bounding box as returned by shapely's `.bounds`:
`(minx, miny, maxx, maxy)`. -/
structure GBounds where
  minx : ℚ
  miny : ℚ
  maxx : ℚ
  maxy : ℚ
deriving DecidableEq, Repr

section Katana

/- Abstract shapely primitives: bounding box, geometry class, member
geometries of a collection (`.geoms`), `geometry.intersection(other)`, and
the `box(minx, miny, maxx, maxy)` constructor. -/
variable {G : Type} (bounds : G → GBounds) (kind : G → GKind) (geoms : G → List G)
  (inter : G → G → G) (boxC : ℚ → ℚ → ℚ → ℚ → G)

/-- `bounds[2] - bounds[0]` (katana line 108). -/
def gWidth (g : G) : ℚ := (bounds g).maxx - (bounds g).minx

/-- `bounds[3] - bounds[1]` (katana line 109). -/
def gHeight (g : G) : ℚ := (bounds g).maxy - (bounds g).miny

/-- `max(width, height)` (katana line 110). -/
def maxDim (g : G) : ℚ := max (gWidth bounds g) (gHeight bounds g)

/-- The first half-box `a` of the katana split (lines 114-121). -/
def katanaBoxA (g : G) : G :=
  let b := bounds g
  if gHeight bounds g ≥ gWidth bounds g then
    boxC b.minx b.miny b.maxx (b.miny + gHeight bounds g / 2)
  else
    boxC b.minx b.miny (b.minx + gWidth bounds g / 2) b.maxy

/-- The second half-box `b` of the katana split (lines 114-121). -/
def katanaBoxB (g : G) : G :=
  let b := bounds g
  if gHeight bounds g ≥ gWidth bounds g then
    boxC b.minx (b.miny + gHeight bounds g / 2) b.maxx b.maxy
  else
    boxC (b.minx + gWidth bounds g / 2) b.miny b.maxx b.maxy

/-- Lines 123-131 of `katana`: intersect with a half-box, unwrap a
`GeometryCollection` into its members, and keep only `Polygon`/`MultiPolygon`
components (the recursion is applied to exactly these). -/
def katanaParts (g d : G) : List G :=
  let c := inter g d
  (if kind c = .collection then geoms c else [c]).filter
    (fun e => decide (kind e = .polygon ∨ kind e = .multiPolygon))

/-- The recursive part of `katana`, with `fuel = 250 - count`: at `fuel = 0`
(count = 250) the depth-limit branch of line 110 returns the geometry
unchanged. -/
def katanaAux : ℕ → G → ℚ → List G
  | 0, g, _ => [g]
  | n + 1, g, t =>
    if maxDim bounds g ≤ t then [g]
    else
      (katanaParts kind geoms inter g
        (katanaBoxA bounds boxC g)).flatMap (fun e => katanaAux n e t) ++
      (katanaParts kind geoms inter g
        (katanaBoxB bounds boxC g)).flatMap (fun e => katanaAux n e t)

/-- Lines 135-141 of `katana`: at the top level (`count == 0`), multipart
results are flattened into single parts. -/
def flattenMP (l : List G) : List G :=
  l.flatMap (fun g => if kind g = .multiPolygon then geoms g else [g])

/-- `katana(geometry, threshold)` called with `count = 0` (geo.py lines
105-141). -/
def katana (g : G) (t : ℚ) : List G :=
  if maxDim bounds g ≤ t then [g]
  else
    flattenMP kind geoms
      ((katanaParts kind geoms inter g
        (katanaBoxA bounds boxC g)).flatMap (fun e => katanaAux bounds kind geoms inter boxC 249 e t) ++
      (katanaParts kind geoms inter g
        (katanaBoxB bounds boxC g)).flatMap (fun e => katanaAux bounds kind geoms inter boxC 249 e t))

/-- Companion of `katanaAux` that tags every returned geometry with whether it
was returned by the depth-limit branch (`count == 250` with the threshold test
failing) rather than by the threshold test. -/
def katanaAuxT : ℕ → G → ℚ → List (G × Bool)
  | 0, g, t => if maxDim bounds g ≤ t then [(g, false)] else [(g, true)]
  | n + 1, g, t =>
    if maxDim bounds g ≤ t then [(g, false)]
    else
      (katanaParts kind geoms inter g
        (katanaBoxA bounds boxC g)).flatMap (fun e => katanaAuxT n e t) ++
      (katanaParts kind geoms inter g
        (katanaBoxB bounds boxC g)).flatMap (fun e => katanaAuxT n e t)

/-- Tag-preserving version of the top-level multipart flattening. -/
def flattenMPT (l : List (G × Bool)) : List (G × Bool) :=
  l.flatMap (fun gb =>
    if kind gb.1 = .multiPolygon then (geoms gb.1).map (fun e => (e, gb.2)) else [gb])

/-- Tagged companion of `katana`. -/
def katanaT (g : G) (t : ℚ) : List (G × Bool) :=
  if maxDim bounds g ≤ t then [(g, false)]
  else
    flattenMPT kind geoms
      ((katanaParts kind geoms inter g
        (katanaBoxA bounds boxC g)).flatMap (fun e => katanaAuxT bounds kind geoms inter boxC 249 e t) ++
      (katanaParts kind geoms inter g
        (katanaBoxB bounds boxC g)).flatMap (fun e => katanaAuxT bounds kind geoms inter boxC 249 e t))

/-- Recursion depth used by `katanaAux` below a call (0 = no recursive call). -/
def katanaDepthAux : ℕ → G → ℚ → ℕ
  | 0, _, _ => 0
  | n + 1, g, t =>
    if maxDim bounds g ≤ t then 0
    else
      1 + max
        (((katanaParts kind geoms inter g
          (katanaBoxA bounds boxC g)).map (fun e => katanaDepthAux n e t)).foldr max 0)
        (((katanaParts kind geoms inter g
          (katanaBoxB bounds boxC g)).map (fun e => katanaDepthAux n e t)).foldr max 0)

/-- Recursion depth of the `katana` call tree from `count = 0`. -/
def katanaDepth (g : G) (t : ℚ) : ℕ :=
  katanaDepthAux bounds kind geoms inter boxC 250 g t

/-- `AREA_LIMIT = 4000000` (geo.py line 20). -/
def AREA_LIMIT : ℚ := 4000000

/-- A GeoJSON Polygon/MultiPolygon feature for `chunk_by_area`, carrying its
geometry; `shapely.from_geojson(json.dumps(feature))` extracts the geometry
and the output wraps each part back into a `Feature`, so the feature is
modelled by its geometry alone (`feature.get('geometry', feature)`). -/
structure GeoFeature (G : Type) where
  geom : G
deriving DecidableEq, Repr

/-- `chunk_by_area(feature, limit=AREA_LIMIT)` (geo.py lines 315-336).
`areaFn` models the third-party `area` package (geodesic area of a GeoJSON
geometry, in m²).  The source compares `area(geom) < AREA_LIMIT` — the module
constant — and its `limit` parameter is never read; below the constant the
feature is returned unchanged (`Sum.inl`), otherwise the geometry is split by
`katana(shapely_poly, 0.01)` and each part is wrapped into a fresh feature
(`Sum.inr`). -/
def chunk_by_area (areaFn : G → ℚ) (f : GeoFeature G) (limit : ℚ) :
    GeoFeature G ⊕ List (GeoFeature G) :=
  if areaFn f.geom < AREA_LIMIT then Sum.inl f
  else
    Sum.inr ((katana bounds kind geoms inter boxC f.geom (1 / 100)).map GeoFeature.mk)

end Katana



/-! ## Concrete axis-aligned-rectangle instance of the geometry interface

Modelled from the spec: a toy shapely model in which every geometry is an
axis-aligned rectangle (possibly degenerate or empty), used by witnesses to
instantiate the abstract geometry interface.  Intersection of rectangles is
the rectangle of coordinate-wise max/min; an improper rectangle represents an
empty intersection and is classified `other`. -/

/-- Bounding box of a rectangle: itself. -/
def rBounds : GBounds → GBounds := id

/-- A proper (possibly degenerate) rectangle is a `polygon`; an improper one
models an empty intersection result. -/
def rKind (r : GBounds) : GKind :=
  if r.minx ≤ r.maxx ∧ r.miny ≤ r.maxy then .polygon else .other

/-- Rectangles have no member geometries. -/
def rGeoms : GBounds → List GBounds := fun _ => []

/-- Rectangle intersection. -/
def rInter (r s : GBounds) : GBounds :=
  ⟨max r.minx s.minx, max r.miny s.miny, min r.maxx s.maxx, min r.maxy s.maxy⟩

/-- The `box` constructor for rectangles. -/
def rBox (x0 y0 x1 y1 : ℚ) : GBounds := ⟨x0, y0, x1, y1⟩

/-- Area of a rectangle (0 if degenerate or improper). -/
def rArea (r : GBounds) : ℚ :=
  max 0 (r.maxx - r.minx) * max 0 (r.maxy - r.miny)

/-! ## Concrete inputs for counterexamples and witnesses -/

/-- First frame of the spec's end-to-end scenario 1: sequence a, idx 0,
position (lat 0, lon 0). -/
def exF0 : Frame := ⟨0, 0, 0, ⟨0, 0⟩, none⟩

/-- Second frame of the spec's end-to-end scenario 1: sequence a, idx 1,
5 seconds later, position (lat 0, lon 0.0001). -/
def exF1 : Frame := ⟨0, 1, 5, ⟨0, mkRat 1 10000⟩, none⟩

/-- A concrete stand-in for the Mercator projection in concrete runs whose
result does not depend on it. -/
def exMerc : Position → ℚ × ℚ := fun p => (p.lon, p.lat)

/-- A concrete stand-in for the KDTree ball query (returns no candidates). -/
def exBall : List (List Frame) → ℚ × ℚ → ℚ → List ℕ := fun _ _ _ => []

/-- A concrete stand-in for the local-calendar-day function. -/
def exDayOf : Position → ℤ → ℤ := fun _ ts => ts / 86400

/-- First concrete sequence for the C3 witness. -/
def c3SeqA : List Frame := [⟨0, 0, 0, ⟨0, 0⟩, none⟩, ⟨0, 1, 5, ⟨0, 1⟩, none⟩]

/-- Second concrete sequence for the C3 witness. -/
def c3SeqB : List Frame := [⟨1, 0, 10, ⟨0, 2⟩, none⟩, ⟨1, 1, 15, ⟨0, 3⟩, none⟩]

/-- Concrete cluster state for the C3 witness. -/
def c3St : CState := ⟨[1], [], [c3SeqA], 0, (0, 0), false⟩

/-- A constant stand-in azimuth function for witnesses. -/
def cAzi0 : ℚ → ℚ → ℚ → ℚ → ℚ := fun _ _ _ _ => 0

/-! ## Stitch structural lemmas -/

/-- Erase the `heading` key: the post-process writes only this field, so
frames are compared modulo it. -/
def stripHeading (f : Frame) : Frame := { f with heading := none }

/-- Invariant of the `cluster_seqs` loop: the finished clusters, the open
cluster and the remaining indices together hold exactly the input sequences;
all tracked indices are in range; clusters are non-empty and made of input
sequences. -/
structure ClusterInv (seqs : List (List Frame)) (st : CState) : Prop where
  perm : List.Perm
    (st.clusters.flatten ++ st.cluster ++ st.remaining.map (fun i => seqs.getD i []))
    seqs
  rem_lt : ∀ i ∈ st.remaining, i < seqs.length
  cur_lt : st.curSeq < seqs.length
  clusters_ne : ∀ c ∈ st.clusters, c ≠ []
  cluster_ne : st.cluster ≠ []
  cluster_mem : ∀ s ∈ st.cluster, s ∈ seqs
  clusters_mem : ∀ c ∈ st.clusters, ∀ s ∈ c, s ∈ seqs

/-- Third frame (second sequence) of the C9 witness input. -/
def exG0 : Frame := ⟨1, 0, 10, ⟨0, 2⟩, none⟩

/-- Fourth frame (second sequence) of the C9 witness input. -/
def exG1 : Frame := ⟨1, 1, 15, ⟨0, 3⟩, none⟩

/-- The C9 witness input: two two-frame sequences on one day. -/
def c9Frames : List Frame := [exF0, exF1, exG0, exG1]

/-- The paths `stitch` returns on the C9 witness input. -/
def c9Paths : List (List Frame) :=
  (stitch aziEq2 exMerc exBall exDayOf 6 c9Frames DEFAULT_STITCH_MAX_DISTANCE
    DEFAULT_STITCH_MAX_LAG DEFAULT_STITCH_MAX_ANGLE).toOption.getD []

/-! # Theorems -/

theorem sInsert_perm (key : α → ℤ) (a : α) (l : List α) :
    List.Perm (sInsert key a l) (a :: l) := by
  induction l with
  | nil => simp [sInsert]
  | cons b bs ih =>
    simp only [sInsert]
    split
    · exact List.Perm.refl _
    · exact List.Perm.trans (List.Perm.cons b ih) (List.Perm.swap a b bs)

theorem sortByKey_perm (key : α → ℤ) (l : List α) :
    List.Perm (sortByKey key l) l := by
  induction l with
  | nil => simp [sortByKey]
  | cons a as ih =>
    exact List.Perm.trans (sInsert_perm key a (sortByKey key as)) (List.Perm.cons a ih)

theorem sInsert_pairwise (key : α → ℤ) (a : α) (l : List α)
    (h : List.Pairwise (fun x y => key x ≤ key y) l) :
    List.Pairwise (fun x y => key x ≤ key y) (sInsert key a l) := by
  induction l with
  | nil => simp [sInsert]
  | cons b bs ih =>
    simp only [sInsert]
    split
    · rename_i hab
      refine List.Pairwise.cons ?_ h
      intro y hy
      rcases List.mem_cons.mp hy with rfl | hy
      · exact le_of_lt hab
      · exact le_trans (le_of_lt hab) ((List.pairwise_cons.mp h).1 y hy)
    · rename_i hab
      have hba : key b ≤ key a := le_of_not_lt hab
      rcases List.pairwise_cons.mp h with ⟨hb, hbs⟩
      refine List.Pairwise.cons ?_ (ih hbs)
      intro y hy
      have hmem := (sInsert_perm key a bs).mem_iff.mp hy
      rcases List.mem_cons.mp hmem with rfl | hy'
      · exact hba
      · exact hb y hy'

theorem sortByKey_pairwise (key : α → ℤ) (l : List α) :
    List.Pairwise (fun x y => key x ≤ key y) (sortByKey key l) := by
  induction l with
  | nil => simp [sortByKey]
  | cons a as ih => exact sInsert_pairwise key a (sortByKey key as) ih

theorem addToGroups_flatten [DecidableEq κ] (key : α → κ)
    (gs : List (κ × List α)) (a : α) :
    List.Perm ((addToGroups key gs a).flatMap Prod.snd) (gs.flatMap Prod.snd ++ [a]) := by
  induction gs with
  | nil => simp [addToGroups]
  | cons g rest ih =>
    obtain ⟨k, xs⟩ := g
    simp only [addToGroups]
    split
    · simp only [List.flatMap_cons, List.append_assoc]
      exact List.Perm.append_left xs (by simpa using (List.perm_append_singleton a (rest.flatMap Prod.snd)).symm)
    · simp only [List.flatMap_cons, List.append_assoc]
      exact List.Perm.append_left xs ih

theorem groupByKey_flatten_aux [DecidableEq κ] (key : α → κ) (l : List α)
    (gs : List (κ × List α)) :
    List.Perm ((l.foldl (addToGroups key) gs).flatMap Prod.snd)
      (gs.flatMap Prod.snd ++ l) := by
  induction l generalizing gs with
  | nil => simp
  | cons a as ih =>
    simp only [List.foldl_cons]
    refine List.Perm.trans (ih (addToGroups key gs a)) ?_
    have h1 := addToGroups_flatten key gs a
    have h2 : (gs.flatMap Prod.snd ++ [a]) ++ as = gs.flatMap Prod.snd ++ (a :: as) := by
      simp
    exact h2 ▸ List.Perm.append_right as h1

/-- The groups of `groupByKey` contain exactly the input elements. -/
theorem groupByKey_flatten [DecidableEq κ] (key : α → κ) (l : List α) :
    List.Perm ((groupByKey key l).flatMap Prod.snd) l := by
  simpa using groupByKey_flatten_aux key l []

theorem addToGroups_snd_ne_nil [DecidableEq κ] (key : α → κ)
    (gs : List (κ × List α)) (a : α)
    (h : ∀ g ∈ gs, (g : κ × List α).2 ≠ []) :
    ∀ g ∈ addToGroups key gs a, (g : κ × List α).2 ≠ [] := by
  induction gs with
  | nil => simp [addToGroups]
  | cons g rest ih =>
    obtain ⟨k, xs⟩ := g
    simp only [addToGroups]
    split
    · intro g hg
      rcases List.mem_cons.mp hg with rfl | hg
      · simp
      · exact h g (List.mem_cons_of_mem _ hg)
    · intro g hg
      rcases List.mem_cons.mp hg with rfl | hg
      · exact h (k, xs) (List.mem_cons_self _ _)
      · exact ih (fun g' hg' => h g' (List.mem_cons_of_mem _ hg')) g hg

/-- Every group produced by `groupByKey` is non-empty. -/
theorem groupByKey_snd_ne_nil [DecidableEq κ] (key : α → κ) (l : List α) :
    ∀ g ∈ groupByKey key l, (g : κ × List α).2 ≠ [] := by
  have : ∀ gs : List (κ × List α), (∀ g ∈ gs, (g : κ × List α).2 ≠ []) →
      ∀ g ∈ l.foldl (addToGroups key) gs, (g : κ × List α).2 ≠ [] := by
    induction l with
    | nil => intro gs h; simpa using h
    | cons a as ih =>
      intro gs h
      simp only [List.foldl_cons]
      exact ih _ (addToGroups_snd_ne_nil key gs a h)
  exact this [] (by simp)

theorem explodeGo_eq_splitRec (azi2 : ℚ → ℚ → ℚ → ℚ → ℚ) (t : ℚ) (rest : List Coord) :
    ∀ p2 p1 curLine lines,
      explodeGo azi2 t p2 p1 rest curLine lines =
        lines ++ ((curLine ++ (splitRec azi2 t p2 p1 rest).1) ::
          (splitRec azi2 t p2 p1 rest).2) := by
  induction rest with
  | nil => intro p2 p1 curLine lines; simp [explodeGo, splitRec]
  | cons c cs ih =>
    intro p2 p1 curLine lines
    simp only [explodeGo, splitRec]
    split
    · rw [ih]; simp
    · rw [ih]; simp

theorem sharpIdxs_pairwise (azi2 : ℚ → ℚ → ℚ → ℚ → ℚ) (s : List Coord) (t : ℚ) :
    List.Pairwise (· < ·) (sharpIdxs azi2 s t) :=
  (List.pairwise_lt_range s.length).sublist (List.filter_sublist _)

theorem mem_sharpIdxs (azi2 : ℚ → ℚ → ℚ → ℚ → ℚ) (s : List Coord) (t : ℚ) (j : ℕ) :
    j ∈ sharpIdxs azi2 s t ↔ isSharp azi2 s t j = true := by
  constructor
  · intro h
    exact (List.mem_filter.mp h).2
  · intro h
    refine List.mem_filter.mpr ⟨List.mem_range.mpr ?_, h⟩
    have h2 : j + 1 < s.length := by
      have := (Bool.and_eq_true _ _).mp h
      have := (Bool.and_eq_true _ _).mp this.1
      exact of_decide_eq_true this.2
    omega

/-- Peeling a sorted list of naturals at the cut `k`: the elements above `k`
are `k+1` (if present) followed by the elements above `k+1`. -/
theorem filter_lt_sorted_eq (k : ℕ) (l : List ℕ) (hl : List.Pairwise (· < ·) l) :
    l.filter (fun j => decide (k < j)) =
      (if k + 1 ∈ l then [k + 1] else []) ++ l.filter (fun j => decide (k + 1 < j)) := by
  induction l with
  | nil => simp
  | cons x xs ih =>
    rcases List.pairwise_cons.mp hl with ⟨hx, hxs⟩
    by_cases hxk : k < x
    · by_cases hx1 : x = k + 1
      · subst hx1
        have hall : ∀ y ∈ xs, k + 1 < y := hx
        have e1 : xs.filter (fun j => decide (k < j)) = xs :=
          List.filter_eq_self.mpr (fun y hy => decide_eq_true (by have := hall y hy; omega))
        have e2 : xs.filter (fun j => decide (k + 1 < j)) = xs :=
          List.filter_eq_self.mpr (fun y hy => decide_eq_true (hall y hy))
        simp [List.filter_cons, hxk, e1, e2]
      · have hx2 : k + 1 < x := by omega
        have hnotmem : k + 1 ∉ xs := fun hmem => by have := hx _ hmem; omega
        have hnotmem' : k + 1 ∉ x :: xs := by
          intro hmem
          rcases List.mem_cons.mp hmem with h | h
          · omega
          · exact hnotmem h
        have htail : xs.filter (fun j => decide (k < j)) =
            xs.filter (fun j => decide (k + 1 < j)) := by
          rw [ih hxs, if_neg hnotmem, List.nil_append]
        simp [List.filter_cons, hxk, hx2, hnotmem', htail]
    · have hxne : x ≠ k + 1 := by omega
      have hx2 : ¬ (k + 1 < x) := by omega
      have hmemiff : (k + 1 ∈ x :: xs) ↔ (k + 1 ∈ xs) := by
        constructor
        · intro hmem
          rcases List.mem_cons.mp hmem with h | h
          · omega
          · exact h
        · exact List.mem_cons_of_mem x
      simp only [List.filter_cons, decide_eq_true_eq, if_neg hxk, if_neg hx2]
      rw [ih hxs]
      by_cases hmem : k + 1 ∈ xs
      · rw [if_pos hmem, if_pos (hmemiff.mpr hmem)]
      · rw [if_neg hmem, if_neg (fun h => hmem (hmemiff.mp h))]

theorem listSlice_full (s : List Coord) (k : ℕ) (hk : k + 1 ≤ s.length) :
    listSlice s k (s.length - 1) = s.drop k := by
  unfold listSlice
  have h1 : s.length - 1 + 1 - k = s.length - k := by omega
  rw [h1]
  exact List.take_of_length_le (by simp)

theorem listSlice_cons (s : List Coord) (k j : ℕ) (hkj : k < j) (hkn : k < s.length) :
    listSlice s k j = s.getD k (0, 0) :: listSlice s (k + 1) j := by
  unfold listSlice
  rw [List.drop_eq_getElem_cons hkn, List.getD_eq_getElem s (0, 0) hkn]
  have h1 : j + 1 - k = (j + 1 - (k + 1)) + 1 := by omega
  rw [h1, List.take_succ_cons]

theorem listSlice_single (s : List Coord) (k : ℕ) (hk : k < s.length) :
    listSlice s k k = [s.getD k (0, 0)] := by
  unfold listSlice
  rw [List.drop_eq_getElem_cons hk, List.getD_eq_getElem s (0, 0) hk]
  have h1 : k + 1 - k = 1 := by omega
  rw [h1, List.take_succ_cons, List.take_zero]

theorem listSlice_pair (s : List Coord) (k : ℕ) (hk : k + 1 < s.length) :
    listSlice s k (k + 1) = [s.getD k (0, 0), s.getD (k + 1) (0, 0)] := by
  rw [listSlice_cons s k (k + 1) (by omega) (by omega), listSlice_single s (k + 1) hk]

/-- Central lemma for the sharp-angle split: from any valid start index `k`,
the assembled slices determined by the sharp indices after `k` coincide with
the sub-lines computed by `splitRec` from the two points at `k`, `k+1`. -/
theorem specAssemble_eq_splitRec (azi2 : ℚ → ℚ → ℚ → ℚ → ℚ) (s : List Coord) (t : ℚ) :
    ∀ m k, s.length - (k + 2) = m → k + 2 ≤ s.length →
      specAssemble s k ((sharpIdxs azi2 s t).filter (fun j => decide (k < j))) =
        (s.getD k (0, 0) :: s.getD (k + 1) (0, 0) ::
          (splitRec azi2 t (s.getD k (0, 0)) (s.getD (k + 1) (0, 0)) (s.drop (k + 2))).1) ::
        (splitRec azi2 t (s.getD k (0, 0)) (s.getD (k + 1) (0, 0)) (s.drop (k + 2))).2 := by
  intro m
  induction m with
  | zero =>
    intro k hm hk
    have hn : s.length = k + 2 := by omega
    have hdrop : s.drop (k + 2) = [] := List.drop_eq_nil_of_le (by omega)
    have hfil : (sharpIdxs azi2 s t).filter (fun j => decide (k < j)) = [] := by
      refine List.filter_eq_nil_iff.mpr ?_
      intro j hj
      have hs := (mem_sharpIdxs azi2 s t j).mp hj
      have hb : j + 1 < s.length := by
        have h1 := (Bool.and_eq_true _ _).mp hs
        have h2 := (Bool.and_eq_true _ _).mp h1.1
        exact of_decide_eq_true h2.2
      simp only [decide_eq_true_eq]
      omega
    rw [hfil, hdrop]
    simp only [specAssemble, splitRec]
    have h1 : s.length - 1 = k + 1 := by omega
    rw [h1, listSlice_pair s k (by omega)]
  | succ m ih =>
    intro k hm hk
    have hkn : k + 2 < s.length := by omega
    have hdrop : s.drop (k + 2) = s.getD (k + 2) (0, 0) :: s.drop (k + 3) := by
      rw [List.drop_eq_getElem_cons (l := s) (by omega),
        List.getD_eq_getElem s (0, 0) (by omega)]
    have hsharp1 : isSharp azi2 s t (k + 1) =
        decide (t < angle_between_segments azi2
          (s.getD k (0, 0)) (s.getD (k + 1) (0, 0)) (s.getD (k + 2) (0, 0))) := by
      unfold isSharp
      have e1 : decide (1 ≤ k + 1) = true := by simp
      have e2 : decide (k + 1 + 1 < s.length) = true := decide_eq_true (by omega)
      have e3 : k + 1 - 1 = k := by omega
      rw [e1, e2, e3]
      simp
    have hpeel := filter_lt_sorted_eq k (sharpIdxs azi2 s t) (sharpIdxs_pairwise azi2 s t)
    have hih := ih (k + 1) (by omega) (by omega)
    rw [(by omega : k + 1 + 2 = k + 3), (by omega : k + 1 + 1 = k + 2)] at hih
    by_cases hth : angle_between_segments azi2
        (s.getD k (0, 0)) (s.getD (k + 1) (0, 0)) (s.getD (k + 2) (0, 0)) ≤ t
    · -- no sharp corner at k+1: the current sub-line continues
      have hnotmem : k + 1 ∉ sharpIdxs azi2 s t := by
        intro hmem
        have hs := (mem_sharpIdxs azi2 s t (k + 1)).mp hmem
        rw [hsharp1] at hs
        have := of_decide_eq_true hs
        exact absurd this (not_lt.mpr hth)
      rw [if_neg hnotmem, List.nil_append] at hpeel
      have hs1 : (splitRec azi2 t (s.getD k (0, 0)) (s.getD (k + 1) (0, 0)) (s.drop (k + 2))).1 =
          s.getD (k + 2) (0, 0) ::
            (splitRec azi2 t (s.getD (k + 1) (0, 0)) (s.getD (k + 2) (0, 0)) (s.drop (k + 3))).1 := by
        rw [hdrop]
        simp only [splitRec]
        rw [if_pos hth]
      have hs2 : (splitRec azi2 t (s.getD k (0, 0)) (s.getD (k + 1) (0, 0)) (s.drop (k + 2))).2 =
          (splitRec azi2 t (s.getD (k + 1) (0, 0)) (s.getD (k + 2) (0, 0)) (s.drop (k + 3))).2 := by
        rw [hdrop]
        simp only [splitRec]
        rw [if_pos hth]
      rw [hpeel, hs1, hs2]
      rcases hfc : (sharpIdxs azi2 s t).filter (fun j => decide (k + 1 < j)) with _ | ⟨j, js⟩
      · rw [hfc] at hih
        simp only [specAssemble] at hih ⊢
        have hp := (List.cons.injEq _ _ _ _) ▸ hih
        rw [listSlice_cons s k (s.length - 1) (by omega) (by omega), hp.1, ← hp.2]
      · rw [hfc] at hih
        have hjmem : j ∈ (sharpIdxs azi2 s t).filter (fun j => decide (k + 1 < j)) := by
          rw [hfc]; exact List.mem_cons_self _ _
        have hkj : k + 1 < j := by
          have := (List.mem_filter.mp hjmem).2
          exact of_decide_eq_true this
        simp only [specAssemble] at hih ⊢
        have hp := (List.cons.injEq _ _ _ _) ▸ hih
        rw [listSlice_cons s k j (by omega) (by omega), hp.1, hp.2]
    · -- sharp corner at k+1: close the sub-line, emit the corner
      have hmem : k + 1 ∈ sharpIdxs azi2 s t := by
        refine (mem_sharpIdxs azi2 s t (k + 1)).mpr ?_
        rw [hsharp1]
        exact decide_eq_true (lt_of_not_le hth)
      rw [if_pos hmem] at hpeel
      have hpeel' : (sharpIdxs azi2 s t).filter (fun j => decide (k < j)) =
          (k + 1) :: (sharpIdxs azi2 s t).filter (fun j => decide (k + 1 < j)) := by
        rw [hpeel]; rfl
      have hs1 : (splitRec azi2 t (s.getD k (0, 0)) (s.getD (k + 1) (0, 0)) (s.drop (k + 2))).1 =
          [] := by
        rw [hdrop]
        simp only [splitRec]
        rw [if_neg hth]
      have hs2 : (splitRec azi2 t (s.getD k (0, 0)) (s.getD (k + 1) (0, 0)) (s.drop (k + 2))).2 =
          [s.getD (k + 1) (0, 0)] ::
            (s.getD (k + 1) (0, 0) :: s.getD (k + 2) (0, 0) ::
              (splitRec azi2 t (s.getD (k + 1) (0, 0)) (s.getD (k + 2) (0, 0))
                (s.drop (k + 3))).1) ::
            (splitRec azi2 t (s.getD (k + 1) (0, 0)) (s.getD (k + 2) (0, 0))
              (s.drop (k + 3))).2 := by
        rw [hdrop]
        simp only [splitRec]
        rw [if_neg hth]
      rw [hpeel', hs1, hs2]
      simp only [specAssemble]
      rw [hih, listSlice_pair s k (by omega)]

/-- `explode_sharp_angles` computes exactly the index-based description
`splitAtSharp`. -/
theorem explode_sharp_angles_eq_splitAtSharp (azi2 : ℚ → ℚ → ℚ → ℚ → ℚ)
    (coords : List Coord) (t : ℚ) :
    explode_sharp_angles azi2 coords t = splitAtSharp azi2 coords t := by
  match coords with
  | [] => simp [explode_sharp_angles, splitAtSharp]
  | [c0] => simp [explode_sharp_angles, splitAtSharp]
  | [c0, c1] => simp [explode_sharp_angles, splitAtSharp]
  | c0 :: c1 :: c2 :: cs =>
    have hlen : ¬ (c0 :: c1 :: c2 :: cs).length < 3 := by simp
    have hexp : explode_sharp_angles azi2 (c0 :: c1 :: c2 :: cs) t =
        explodeGo azi2 t c0 c1 (c2 :: cs) [c0, c1] [] := rfl
    unfold splitAtSharp
    rw [hexp, if_neg hlen]
    rw [explodeGo_eq_splitRec]
    have hfil : (sharpIdxs azi2 (c0 :: c1 :: c2 :: cs) t).filter (fun j => decide (0 < j)) =
        sharpIdxs azi2 (c0 :: c1 :: c2 :: cs) t := by
      refine List.filter_eq_self.mpr ?_
      intro j hj
      have hs := (mem_sharpIdxs azi2 _ t j).mp hj
      have h1 := (Bool.and_eq_true _ _).mp hs
      have h2 := (Bool.and_eq_true _ _).mp h1.1
      have : 1 ≤ j := of_decide_eq_true h2.1
      exact decide_eq_true (by omega)
    have hmain := specAssemble_eq_splitRec azi2 (c0 :: c1 :: c2 :: cs) t
      ((c0 :: c1 :: c2 :: cs).length - 2) 0 rfl (by simp)
    rw [hfil] at hmain
    rw [hmain]
    simp [List.getD_cons_zero, List.getD_cons_succ]

/-! ## Helper lemmas about the heading post-process -/

theorem headsGo_getD (azi2 : ℚ → ℚ → ℚ → ℚ → ℚ) :
    ∀ (l : List Frame) (prev : Frame) (i : ℕ), i < l.length →
      (headsGo azi2 prev l).getD i default =
        { l.getD i default with
          heading := some (frame_azi azi2 (l.getD i default) ((prev :: l).getD i default)) } := by
  intro l
  induction l with
  | nil => intro prev i hi; simp at hi
  | cons c cs ih =>
    intro prev i hi
    match i with
    | 0 => simp [headsGo]
    | j + 1 =>
      have hj : j < cs.length := by simpa using hi
      simpa [headsGo] using ih c j hj

theorem headsGo_length (azi2 : ℚ → ℚ → ℚ → ℚ → ℚ) :
    ∀ (l : List Frame) (prev : Frame), (headsGo azi2 prev l).length = l.length := by
  intro l
  induction l with
  | nil => intro prev; simp [headsGo]
  | cons c cs ih => intro prev; simp [headsGo, ih]

/-! ## Claim C1 -/

/-- C1 (counterexample).  On the claim's own two-frame input — positions
(lat 0, lon 0) then (lat 0, lon 0.0001) — the stitcher's post-process assigns
the second frame the heading −90°, the geodesic `azi2` from the second frame
back to the first (`frame_azi(sequence[i], sequence[i-1])`, stitching.py line
212), while the geodesic azimuth from the previous frame to it is +90°; so
the heading is not the azimuth from the previous frame, and is not
approximately 90°. -/
theorem c1_counterexample :
    stitch aziEq2 exMerc exBall exDayOf 0 [exF0, exF1] =
      .ok [[{ exF0 with heading := some (-90) }, { exF1 with heading := some (-90) }]] ∧
    aziEq2 exF0.position.lat exF0.position.lon exF1.position.lat exF1.position.lon = 90 ∧
    ¬ ((-90 : ℚ) = 90) :=
  ⟨by decide, by decide, by decide⟩

/-- C1 (corrected): in the post-process, every frame except the first of a
stitched path is assigned `heading = frame_azi(frame, previous frame)` — the
geodesic `azi2` from that frame to the previous frame (the reverse bearing),
not from the previous frame to it — and the first frame inherits its
successor's heading; on the two-frame example the second frame's heading is
therefore −90°. -/
theorem c1_amended (azi2 : ℚ → ℚ → ℚ → ℚ → ℚ) (p : List Frame) (i : ℕ)
    (h1 : 1 ≤ i) (h2 : i < p.length) :
    ((assign_headings azi2 p).getD i default).heading =
      some (frame_azi azi2 (p.getD i default) (p.getD (i - 1) default)) ∧
    ((assign_headings azi2 p).getD 0 default).heading =
      some (frame_azi azi2 (p.getD 1 default) (p.getD 0 default)) ∧
    ((stitch aziEq2 exMerc exBall exDayOf 0 [exF0, exF1]).toOption.getD [] |>.getD 0 []
      |>.getD 1 default).heading = some (-90) := by
  match p, h2 with
  | f0 :: f1 :: rest, hlen =>
    refine ⟨?_, ?_, by decide⟩
    · match i, h1, hlen with
      | 1, _, _ => simp [assign_headings]
      | j + 2, _, hlen' =>
        have hj : j < rest.length := by
          simpa using hlen'
        have := headsGo_getD azi2 rest f1 j hj
        simp only [assign_headings, List.getD_cons_succ]
        rw [this]
        match j with
        | 0 => simp
        | k + 1 => simp
    · simp [assign_headings]
  | [f], h2 =>
    simp at h2
    omega
  | [], h2 =>
    simp at h2

/-- C1 (witness for the amended theorem). -/
theorem c1_amended_witness :
    ((assign_headings aziEq2 [exF0, exF1]).getD 1 default).heading =
      some (frame_azi aziEq2 ([exF0, exF1].getD 1 default) ([exF0, exF1].getD 0 default)) ∧
    ((assign_headings aziEq2 [exF0, exF1]).getD 0 default).heading =
      some (frame_azi aziEq2 ([exF0, exF1].getD 1 default) ([exF0, exF1].getD 0 default)) ∧
    ((stitch aziEq2 exMerc exBall exDayOf 0 [exF0, exF1]).toOption.getD [] |>.getD 0 []
      |>.getD 1 default).heading = some (-90) := by
  have h := c1_amended aziEq2 [exF0, exF1] 1 (by decide) (by decide)
  exact h

/-! ## Claim C8 -/

/-- C8: `stitch` on an empty frame list returns an empty path list, with no
error (stitching.py lines 162-164); the error-taxonomy's "no frames present
for stitching is fatal" does not describe the code. -/
theorem c8_stitch_empty (azi2 : ℚ → ℚ → ℚ → ℚ → ℚ) (merc : Position → ℚ × ℚ)
    (ball : List (List Frame) → ℚ × ℚ → ℚ → List ℕ) (dayOf : Position → ℤ → ℤ)
    (fuel : ℕ) (maxDist : ℚ) (maxLag : ℤ) (maxAz : ℚ) :
    stitch azi2 merc ball dayOf fuel [] maxDist maxLag maxAz = .ok [] := rfl

/-! ## Claim C3 -/

/-- C3: behaviour of the candidate loop of the greedy clustering
(stitching.py lines 135-150).  For the first candidate `i` of the (nearest
first) candidate list: a lag failure closes the cluster and tries no further
candidate; passing the lag test but failing the bearing test skips to the
next candidate without closing the cluster; passing both appends the
candidate to the cluster. -/
theorem c3_candidate_rules (azi2 : ℚ → ℚ → ℚ → ℚ → ℚ) (merc : Position → ℚ × ℚ)
    (seqs : List (List Frame)) (maxLag : ℤ) (maxAz : ℚ)
    (i : ℕ) (rest : List ℕ) (st : CState) :
    (maxLag < seqs_lag (seqs.getD st.curSeq []) (seqs.getD i []) →
      tryCandidates azi2 merc seqs maxLag maxAz (i :: rest) st =
        .ok { st with clusterDone := true }) ∧
    (∀ d, seqs_lag (seqs.getD st.curSeq []) (seqs.getD i []) ≤ maxLag →
      seqs_azi_delta azi2 (seqs.getD st.curSeq []) (seqs.getD i []) = some d →
      maxAz < d →
      tryCandidates azi2 merc seqs maxLag maxAz (i :: rest) st =
        tryCandidates azi2 merc seqs maxLag maxAz rest st) ∧
    (∀ d, seqs_lag (seqs.getD st.curSeq []) (seqs.getD i []) ≤ maxLag →
      seqs_azi_delta azi2 (seqs.getD st.curSeq []) (seqs.getD i []) = some d →
      d ≤ maxAz →
      tryCandidates azi2 merc seqs maxLag maxAz (i :: rest) st =
        .ok { st with
          remaining := st.remaining.erase i
          curSeq := i
          cluster := st.cluster ++ [seqs.getD i []]
          lastPos := merc ((seqs.getD i []).getLastD default).position }) := by
  refine ⟨?_, ?_, ?_⟩
  · intro hlag
    simp only [tryCandidates]
    rw [if_pos hlag]
  · intro d hlag hdelta hmax
    simp only [tryCandidates]
    rw [if_neg (not_lt.mpr hlag), hdelta]
    simp only []
    rw [if_pos hmax]
  · intro d hlag hdelta hmax
    simp only [tryCandidates]
    rw [if_neg (not_lt.mpr hlag), hdelta]
    simp only []
    rw [if_neg (not_lt.mpr hmax)]

/-- C3 (witness): a concrete candidate passing both tests is appended. -/
theorem c3_witness :
    tryCandidates cAzi0 exMerc [c3SeqA, c3SeqB] 360 100 [1] c3St =
      .ok { c3St with
        remaining := c3St.remaining.erase 1
        curSeq := 1
        cluster := c3St.cluster ++ [[c3SeqA, c3SeqB].getD 1 []]
        lastPos := exMerc (([c3SeqA, c3SeqB].getD 1 []).getLastD default).position } := by
  refine (c3_candidate_rules cAzi0 exMerc [c3SeqA, c3SeqB] 360 100 1 [] c3St).2.2 0 ?_ ?_ ?_
  · decide
  · simp [seqs_azi_delta, abs_angular_delta, cAzi0, c3SeqA, c3SeqB, c3St]
  · decide

/-! ## Claim C2 -/

/-- C2 (code bug): `chunk_by_area` compares `area(geom) < AREA_LIMIT`
(geo.py line 318) — the hardcoded module constant 4 km² — and never reads its
`limit` parameter, so a feature whose area (2 km² here) exceeds the
caller-supplied ceiling (`max_area = 250000`, the map-match value of
imagery/query.py line 723) is returned unchanged instead of being
partitioned. -/
theorem c2_limit_ignored {G : Type} (bounds : G → GBounds) (kind : G → GKind)
    (geoms : G → List G) (inter : G → G → G) (boxC : ℚ → ℚ → ℚ → ℚ → G)
    (areaFn : G → ℚ) (f : GeoFeature G) (limit : ℚ)
    (harea : areaFn f.geom = 2000000) (hlimit : limit = 250000) :
    chunk_by_area bounds kind geoms inter boxC areaFn f limit = Sum.inl f ∧
    limit < areaFn f.geom := by
  constructor
  · unfold chunk_by_area
    rw [harea]
    rw [if_pos (by norm_num [AREA_LIMIT])]
  · rw [harea, hlimit]
    norm_num

/-- C2 (witness): the rectangle model instantiation. -/
theorem c2_witness :
    chunk_by_area rBounds rKind rGeoms rInter rBox (fun _ => 2000000)
      (GeoFeature.mk ⟨0, 0, 1, 1⟩) 250000 = Sum.inl (GeoFeature.mk ⟨0, 0, 1, 1⟩) ∧
    (250000 : ℚ) < (fun _ => (2000000 : ℚ)) (GeoFeature.mk (G := GBounds) ⟨0, 0, 1, 1⟩).geom :=
  c2_limit_ignored rBounds rKind rGeoms rInter rBox (fun _ => 2000000)
    (GeoFeature.mk ⟨0, 0, 1, 1⟩) 250000 rfl rfl

/-! ## Claim C7 -/

/-- C7: `explode_sharp_angles` splits a coordinate list exactly at the
interior vertices whose turn angle exceeds the threshold (default 45°):
the result is the corner-to-corner slices with each sharp corner emitted as
its own single-point sub-line in between (`splitAtSharp`), and when no
interior turn angle exceeds the threshold the result is the single sub-line
equal to the input. -/
theorem c7_explode_splits (azi2 : ℚ → ℚ → ℚ → ℚ → ℚ) (coords : List Coord) (t : ℚ) :
    explode_sharp_angles azi2 coords t = splitAtSharp azi2 coords t ∧
    ((∀ j, 1 ≤ j → j + 1 < coords.length →
        angle_between_segments azi2 (coords.getD (j - 1) (0, 0)) (coords.getD j (0, 0))
          (coords.getD (j + 1) (0, 0)) ≤ t) →
      explode_sharp_angles azi2 coords t = [coords]) := by
  refine ⟨explode_sharp_angles_eq_splitAtSharp azi2 coords t, ?_⟩
  intro h
  rw [explode_sharp_angles_eq_splitAtSharp azi2 coords t]
  unfold splitAtSharp
  by_cases hl : coords.length < 3
  · rw [if_pos hl]
  · rw [if_neg hl]
    have hnil : sharpIdxs azi2 coords t = [] := by
      refine List.filter_eq_nil_iff.mpr ?_
      intro j hj
      intro hs
      have h1 := (Bool.and_eq_true _ _).mp hs
      have h2 := (Bool.and_eq_true _ _).mp h1.1
      have hb1 : 1 ≤ j := of_decide_eq_true h2.1
      have hb2 : j + 1 < coords.length := of_decide_eq_true h2.2
      have hb3 := of_decide_eq_true h1.2
      exact absurd (h j hb1 hb2) (not_le.mpr hb3)
    rw [hnil]
    simp only [specAssemble]
    rw [listSlice_full coords 0 (by omega)]
    simp

/-- C7 (witness): a three-point straight line under a constant-bearing
azimuth model splits into a single sub-line. -/
theorem c7_witness :
    explode_sharp_angles cAzi0 [(0, 0), (1, 0), (2, 0)] 45 =
      splitAtSharp cAzi0 [(0, 0), (1, 0), (2, 0)] 45 ∧
    explode_sharp_angles cAzi0 [(0, 0), (1, 0), (2, 0)] 45 = [[(0, 0), (1, 0), (2, 0)]] := by
  have h := c7_explode_splits cAzi0 [(0, 0), (1, 0), (2, 0)] 45
  refine ⟨h.1, h.2 ?_⟩
  intro j h1 h2
  have hj : j = 1 := by simp at h2; omega
  subst hj
  simp [angle_between_segments, abs_angular_delta, cAzi0]

/-! ## Katana lemmas -/

theorem foldr_max_le (n : ℕ) (l : List ℕ) (h : ∀ x ∈ l, x ≤ n) :
    l.foldr max 0 ≤ n := by
  induction l with
  | nil => simp
  | cons a as ih =>
    simp only [List.foldr_cons]
    exact max_le (h a (List.mem_cons_self _ _)) (ih (fun x hx => h x (List.mem_cons_of_mem _ hx)))

theorem katanaDepthAux_le {G : Type} (bounds : G → GBounds) (kind : G → GKind)
    (geoms : G → List G) (inter : G → G → G) (boxC : ℚ → ℚ → ℚ → ℚ → G) :
    ∀ (n : ℕ) (g : G) (t : ℚ), katanaDepthAux bounds kind geoms inter boxC n g t ≤ n := by
  intro n
  induction n with
  | zero => intro g t; simp [katanaDepthAux]
  | succ n ih =>
    intro g t
    unfold katanaDepthAux
    split
    · omega
    · have hA := foldr_max_le n (((katanaParts kind geoms inter g
        (katanaBoxA bounds boxC g)).map (fun e => katanaDepthAux bounds kind geoms inter boxC n e t)))
        (by intro x hx
            rcases List.mem_map.mp hx with ⟨e, _, rfl⟩
            exact ih e t)
      have hB := foldr_max_le n (((katanaParts kind geoms inter g
        (katanaBoxB bounds boxC g)).map (fun e => katanaDepthAux bounds kind geoms inter boxC n e t)))
        (by intro x hx
            rcases List.mem_map.mp hx with ⟨e, _, rfl⟩
            exact ih e t)
      omega

theorem katanaAuxT_fst {G : Type} (bounds : G → GBounds) (kind : G → GKind)
    (geoms : G → List G) (inter : G → G → G) (boxC : ℚ → ℚ → ℚ → ℚ → G) :
    ∀ (n : ℕ) (g : G) (t : ℚ),
      (katanaAuxT bounds kind geoms inter boxC n g t).map Prod.fst =
        katanaAux bounds kind geoms inter boxC n g t := by
  intro n
  induction n with
  | zero =>
    intro g t
    unfold katanaAuxT katanaAux
    by_cases h : maxDim bounds g ≤ t <;> simp [h]
  | succ n ih =>
    intro g t
    unfold katanaAuxT katanaAux
    by_cases h : maxDim bounds g ≤ t
    · simp [h]
    · simp only [if_neg h, List.map_append, List.map_flatMap]
      have he : (fun e => (katanaAuxT bounds kind geoms inter boxC n e t).map Prod.fst) =
          (fun e => katanaAux bounds kind geoms inter boxC n e t) :=
        funext (fun e => ih e t)
      rw [he]

theorem katanaAuxT_false_le {G : Type} (bounds : G → GBounds) (kind : G → GKind)
    (geoms : G → List G) (inter : G → G → G) (boxC : ℚ → ℚ → ℚ → ℚ → G) :
    ∀ (n : ℕ) (g : G) (t : ℚ) (e : G),
      (e, false) ∈ katanaAuxT bounds kind geoms inter boxC n g t → maxDim bounds e ≤ t := by
  intro n
  induction n with
  | zero =>
    intro g t e hmem
    unfold katanaAuxT at hmem
    by_cases h : maxDim bounds g ≤ t
    · rw [if_pos h] at hmem
      rcases List.mem_singleton.mp hmem with hp
      have : e = g := congrArg Prod.fst hp
      rw [this]; exact h
    · rw [if_neg h] at hmem
      rcases List.mem_singleton.mp hmem with hp
      exact absurd (congrArg Prod.snd hp) (by simp)
  | succ n ih =>
    intro g t e hmem
    unfold katanaAuxT at hmem
    by_cases h : maxDim bounds g ≤ t
    · rw [if_pos h] at hmem
      rcases List.mem_singleton.mp hmem with hp
      have : e = g := congrArg Prod.fst hp
      rw [this]; exact h
    · rw [if_neg h] at hmem
      rcases List.mem_append.mp hmem with hm | hm
      all_goals {
        rcases List.mem_flatMap.mp hm with ⟨p, _, hpe⟩
        exact ih p t e hpe }

theorem mem_katanaParts_kind {G : Type} (kind : G → GKind) (geoms : G → List G)
    (inter : G → G → G) (g d : G) (e : G) (h : e ∈ katanaParts kind geoms inter g d) :
    kind e = .polygon ∨ kind e = .multiPolygon := by
  unfold katanaParts at h
  have := (List.mem_filter.mp h).2
  exact of_decide_eq_true this

/-- Lifting the per-element bound through the top-level multipart flatten. -/
theorem flattenMP_tagged {G : Type} (bounds : G → GBounds) (kind : G → GKind)
    (geoms : G → List G) (t : ℚ)
    (Hgeoms : ∀ g, kind g = .multiPolygon → ∀ p ∈ geoms g,
      gWidth bounds p ≤ gWidth bounds g ∧ gHeight bounds p ≤ gHeight bounds g)
    (lt : List (G × Bool))
    (hfalse : ∀ x, (x, false) ∈ lt → maxDim bounds x ≤ t) :
    ∀ e ∈ flattenMP kind geoms (lt.map Prod.fst),
      maxDim bounds e ≤ t ∨ (e, true) ∈ flattenMPT kind geoms lt := by
  intro e he
  unfold flattenMP at he
  rw [List.flatMap_map] at he
  rcases List.mem_flatMap.mp he with ⟨gb, hgb, hin⟩
  obtain ⟨x, b⟩ := gb
  dsimp only at hin
  by_cases hmp : kind x = .multiPolygon
  · rw [if_pos hmp] at hin
    cases b with
    | false =>
      left
      have hx := hfalse x hgb
      have hwh := Hgeoms x hmp e hin
      exact le_trans (max_le_max hwh.1 hwh.2) hx
    | true =>
      right
      unfold flattenMPT
      refine List.mem_flatMap.mpr ⟨(x, true), hgb, ?_⟩
      dsimp only
      rw [if_pos hmp]
      exact List.mem_map.mpr ⟨e, hin, rfl⟩
  · rw [if_neg hmp] at hin
    have hex : e = x := List.mem_singleton.mp hin
    cases b with
    | false =>
      rw [hex]
      exact Or.inl (hfalse x hgb)
    | true =>
      right
      unfold flattenMPT
      refine List.mem_flatMap.mpr ⟨(x, true), hgb, ?_⟩
      dsimp only
      rw [if_neg hmp]
      simp [hex]

/-! ## Claim C4 -/

/-- C4: `katana` terminates with recursion depth at most 250, and every
geometry it returns either has bounding-box max dimension at most the
threshold or is traceable (same position, tag `true` in the tagged companion
`katanaT`) to the depth-limit branch `count == 250`.  The only semantic fact
assumed about the shapely primitives is that the members of a `MultiPolygon`
lie within its bounds (`Hgeoms`), used for the top-level multipart
flattening. -/
theorem c4_katana_bounded {G : Type} (bounds : G → GBounds) (kind : G → GKind)
    (geoms : G → List G) (inter : G → G → G) (boxC : ℚ → ℚ → ℚ → ℚ → G)
    (Hgeoms : ∀ g, kind g = .multiPolygon → ∀ p ∈ geoms g,
      gWidth bounds p ≤ gWidth bounds g ∧ gHeight bounds p ≤ gHeight bounds g)
    (g : G) (t : ℚ) :
    katanaDepth bounds kind geoms inter boxC g t ≤ 250 ∧
    ∀ e ∈ katana bounds kind geoms inter boxC g t,
      maxDim bounds e ≤ t ∨ (e, true) ∈ katanaT bounds kind geoms inter boxC g t := by
  constructor
  · exact katanaDepthAux_le bounds kind geoms inter boxC 250 g t
  · intro e he
    unfold katana at he
    unfold katanaT
    by_cases h : maxDim bounds g ≤ t
    · rw [if_pos h] at he
      rcases List.mem_singleton.mp he with rfl
      exact Or.inl h
    · rw [if_neg h] at he
      rw [if_neg h]
      set lt := (katanaParts kind geoms inter g
          (katanaBoxA bounds boxC g)).flatMap
            (fun e => katanaAuxT bounds kind geoms inter boxC 249 e t) ++
        (katanaParts kind geoms inter g
          (katanaBoxB bounds boxC g)).flatMap
            (fun e => katanaAuxT bounds kind geoms inter boxC 249 e t) with hlt
      have hmapfst : lt.map Prod.fst =
          (katanaParts kind geoms inter g
            (katanaBoxA bounds boxC g)).flatMap
              (fun e => katanaAux bounds kind geoms inter boxC 249 e t) ++
          (katanaParts kind geoms inter g
            (katanaBoxB bounds boxC g)).flatMap
              (fun e => katanaAux bounds kind geoms inter boxC 249 e t) := by
        rw [hlt, List.map_append, List.map_flatMap, List.map_flatMap]
        have he2 : (fun e => (katanaAuxT bounds kind geoms inter boxC 249 e t).map Prod.fst) =
            (fun e => katanaAux bounds kind geoms inter boxC 249 e t) :=
          funext (fun e => katanaAuxT_fst bounds kind geoms inter boxC 249 e t)
        rw [he2]
      have hfalse : ∀ x, (x, false) ∈ lt → maxDim bounds x ≤ t := by
        intro x hx
        rw [hlt] at hx
        rcases List.mem_append.mp hx with hm | hm
        all_goals {
          rcases List.mem_flatMap.mp hm with ⟨p, _, hpe⟩
          exact katanaAuxT_false_le bounds kind geoms inter boxC 249 p t x hpe }
      have := flattenMP_tagged bounds kind geoms t Hgeoms lt hfalse e
        (by rw [hmapfst]; exact he)
      exact this

/-- The rectangle model never produces a `MultiPolygon`. -/
theorem rKind_ne_mp (r : GBounds) : rKind r ≠ .multiPolygon := by
  unfold rKind
  split <;> decide

/-- A degenerate point-rectangle is below any nonnegative threshold, so
`katana` returns it unchanged in the rectangle model. -/
theorem katana_rect_point :
    katana rBounds rKind rGeoms rInter rBox ⟨0, 0, 0, 0⟩ 0 = [⟨0, 0, 0, 0⟩] := by
  unfold katana
  rw [if_pos (by norm_num [maxDim, gWidth, gHeight, rBounds])]

/-- C4 (witness): the rectangle-model instantiation at a concrete input. -/
theorem c4_witness :
    katanaDepth rBounds rKind rGeoms rInter rBox ⟨0, 0, 0, 0⟩ 0 ≤ 250 ∧
    (maxDim rBounds (⟨0, 0, 0, 0⟩ : GBounds) ≤ 0 ∨
      ((⟨0, 0, 0, 0⟩ : GBounds), true) ∈ katanaT rBounds rKind rGeoms rInter rBox ⟨0, 0, 0, 0⟩ 0) := by
  have h := c4_katana_bounded rBounds rKind rGeoms rInter rBox
    (fun g hmp => absurd hmp (rKind_ne_mp g)) ⟨0, 0, 0, 0⟩ 0
  refine ⟨h.1, h.2 ⟨0, 0, 0, 0⟩ ?_⟩
  rw [katana_rect_point]
  exact List.mem_singleton.mpr rfl

/-! ## Claim C5: area preservation of katana -/

theorem sum_map_flatMap {G : Type} (areaFn : G → ℚ) (l : List G) (f : G → List G) :
    ((l.flatMap f).map areaFn).sum = (l.map (fun e => ((f e).map areaFn).sum)).sum := by
  induction l with
  | nil => simp
  | cons a as ih => simp [List.flatMap_cons, List.map_append, List.sum_append, ih]

theorem katanaAux_area {G : Type} (bounds : G → GBounds) (kind : G → GKind)
    (geoms : G → List G) (inter : G → G → G) (boxC : ℚ → ℚ → ℚ → ℚ → G)
    (areaFn : G → ℚ) (t : ℚ)
    (Hsplit : ∀ g, (kind g = .polygon ∨ kind g = .multiPolygon) → ¬ maxDim bounds g ≤ t →
      ((katanaParts kind geoms inter g (katanaBoxA bounds boxC g)).map areaFn).sum +
      ((katanaParts kind geoms inter g (katanaBoxB bounds boxC g)).map areaFn).sum = areaFn g) :
    ∀ (n : ℕ) (g : G), (kind g = .polygon ∨ kind g = .multiPolygon) →
      ((katanaAux bounds kind geoms inter boxC n g t).map areaFn).sum = areaFn g := by
  intro n
  induction n with
  | zero => intro g _; simp [katanaAux]
  | succ n ih =>
    intro g hk
    unfold katanaAux
    by_cases h : maxDim bounds g ≤ t
    · simp [h]
    · rw [if_neg h, List.map_append, List.sum_append, sum_map_flatMap, sum_map_flatMap]
      have eA : (katanaParts kind geoms inter g (katanaBoxA bounds boxC g)).map
          (fun e => ((katanaAux bounds kind geoms inter boxC n e t).map areaFn).sum) =
          (katanaParts kind geoms inter g (katanaBoxA bounds boxC g)).map areaFn :=
        List.map_congr_left (fun e hme => ih e (mem_katanaParts_kind kind geoms inter _ _ e hme))
      have eB : (katanaParts kind geoms inter g (katanaBoxB bounds boxC g)).map
          (fun e => ((katanaAux bounds kind geoms inter boxC n e t).map areaFn).sum) =
          (katanaParts kind geoms inter g (katanaBoxB bounds boxC g)).map areaFn :=
        List.map_congr_left (fun e hme => ih e (mem_katanaParts_kind kind geoms inter _ _ e hme))
      rw [eA, eB]
      exact Hsplit g hk h

theorem flattenMP_area {G : Type} (kind : G → GKind) (geoms : G → List G) (areaFn : G → ℚ)
    (Hflat : ∀ g, kind g = .multiPolygon → ((geoms g).map areaFn).sum = areaFn g)
    (l : List G) :
    ((flattenMP kind geoms l).map areaFn).sum = (l.map areaFn).sum := by
  unfold flattenMP
  rw [sum_map_flatMap]
  have := List.map_congr_left (l := l)
    (f := fun g => (((if kind g = .multiPolygon then geoms g else [g]) : List G).map areaFn).sum)
    (g := areaFn)
    (fun g _ => by
      by_cases hmp : kind g = .multiPolygon
      · simp only [if_pos hmp]; exact Hflat g hmp
      · simp only [if_neg hmp]; simp)
  rw [this]

/-- C5: the total area of the sub-geometries returned by `katana` equals the
area of the input geometry, assuming the two semantic facts about the abstract
shapely primitives the proof needs: splitting a geometry along the half-boxes
of its own bounds preserves total area across the kept Polygon/MultiPolygon
components (`Hsplit`, measure additivity of intersection — the dropped
lower-dimensional components carry zero area), and the members of a
`MultiPolygon` sum to its area (`Hflat`).  In the exact-rational model there
is no numerical tolerance. -/
theorem c5_katana_area_preserved {G : Type} (bounds : G → GBounds) (kind : G → GKind)
    (geoms : G → List G) (inter : G → G → G) (boxC : ℚ → ℚ → ℚ → ℚ → G)
    (areaFn : G → ℚ) (g : G) (t : ℚ)
    (hk : kind g = .polygon ∨ kind g = .multiPolygon)
    (Hsplit : ∀ g, (kind g = .polygon ∨ kind g = .multiPolygon) → ¬ maxDim bounds g ≤ t →
      ((katanaParts kind geoms inter g (katanaBoxA bounds boxC g)).map areaFn).sum +
      ((katanaParts kind geoms inter g (katanaBoxB bounds boxC g)).map areaFn).sum = areaFn g)
    (Hflat : ∀ g, kind g = .multiPolygon → ((geoms g).map areaFn).sum = areaFn g) :
    ((katana bounds kind geoms inter boxC g t).map areaFn).sum = areaFn g := by
  unfold katana
  by_cases h : maxDim bounds g ≤ t
  · simp [h]
  · rw [if_neg h, flattenMP_area kind geoms areaFn Hflat,
      List.map_append, List.sum_append, sum_map_flatMap, sum_map_flatMap]
    have eA : (katanaParts kind geoms inter g (katanaBoxA bounds boxC g)).map
        (fun e => ((katanaAux bounds kind geoms inter boxC 249 e t).map areaFn).sum) =
        (katanaParts kind geoms inter g (katanaBoxA bounds boxC g)).map areaFn :=
      List.map_congr_left (fun e hme =>
        katanaAux_area bounds kind geoms inter boxC areaFn t Hsplit 249 e
          (mem_katanaParts_kind kind geoms inter _ _ e hme))
    have eB : (katanaParts kind geoms inter g (katanaBoxB bounds boxC g)).map
        (fun e => ((katanaAux bounds kind geoms inter boxC 249 e t).map areaFn).sum) =
        (katanaParts kind geoms inter g (katanaBoxB bounds boxC g)).map areaFn :=
      List.map_congr_left (fun e hme =>
        katanaAux_area bounds kind geoms inter boxC areaFn t Hsplit 249 e
          (mem_katanaParts_kind kind geoms inter _ _ e hme))
    rw [eA, eB]
    exact Hsplit g hk h

/-! ### Rectangle-model facts discharging the C5 hypotheses -/

theorem rKind_ne_collection (r : GBounds) : rKind r ≠ .collection := by
  unfold rKind
  split <;> decide

theorem katanaParts_rect (r d : GBounds) :
    katanaParts rKind rGeoms rInter r d =
      if rKind (rInter r d) = .polygon then [rInter r d] else [] := by
  unfold katanaParts
  simp only [if_neg (rKind_ne_collection (rInter r d))]
  by_cases hp : rKind (rInter r d) = .polygon
  · rw [if_pos hp]
    simp [List.filter, hp]
  · rw [if_neg hp]
    simp [List.filter, hp, rKind_ne_mp (rInter r d)]

/-- Splitting a rectangle along the half-boxes of its own bounds preserves
area: the rectangle-model instance of `Hsplit`. -/
theorem rect_split_area (t : ℚ) (ht : 0 ≤ t) (r : GBounds)
    (hk : rKind r = .polygon ∨ rKind r = .multiPolygon)
    (hbig : ¬ maxDim rBounds r ≤ t) :
    ((katanaParts rKind rGeoms rInter r (katanaBoxA rBounds rBox r)).map rArea).sum +
    ((katanaParts rKind rGeoms rInter r (katanaBoxB rBounds rBox r)).map rArea).sum = rArea r := by
  have hkp : r.minx ≤ r.maxx ∧ r.miny ≤ r.maxy := by
    rcases hk with hk | hk
    · by_contra hc
      unfold rKind at hk
      rw [if_neg hc] at hk
      exact absurd hk (by decide)
    · exact absurd hk (rKind_ne_mp r)
  obtain ⟨hx, hy⟩ := hkp
  have hw : 0 ≤ r.maxx - r.minx := by linarith
  have hh : 0 ≤ r.maxy - r.miny := by linarith
  rw [katanaParts_rect, katanaParts_rect]
  by_cases hge : gHeight rBounds r ≥ gWidth rBounds r
  · have hA : rInter r (katanaBoxA rBounds rBox r) =
        ⟨r.minx, r.miny, r.maxx, r.miny + (r.maxy - r.miny) / 2⟩ := by
      unfold katanaBoxA
      rw [if_pos hge]
      unfold rInter rBox gHeight rBounds
      simp only [id]
      rw [max_self, max_self, min_self, min_eq_right (by linarith)]
    have hB : rInter r (katanaBoxB rBounds rBox r) =
        ⟨r.minx, r.miny + (r.maxy - r.miny) / 2, r.maxx, r.maxy⟩ := by
      unfold katanaBoxB
      rw [if_pos hge]
      unfold rInter rBox gHeight rBounds
      simp only [id]
      rw [max_self, min_self, min_self, max_eq_right (by linarith)]
    rw [hA, hB]
    have hkA : rKind ⟨r.minx, r.miny, r.maxx, r.miny + (r.maxy - r.miny) / 2⟩ = .polygon := by
      unfold rKind
      rw [if_pos ⟨hx, show r.miny ≤ r.miny + (r.maxy - r.miny) / 2 by linarith⟩]
    have hkB : rKind ⟨r.minx, r.miny + (r.maxy - r.miny) / 2, r.maxx, r.maxy⟩ = .polygon := by
      unfold rKind
      rw [if_pos ⟨hx, show r.miny + (r.maxy - r.miny) / 2 ≤ r.maxy by linarith⟩]
    rw [if_pos hkA, if_pos hkB]
    simp only [List.map_cons, List.map_nil, List.sum_cons, List.sum_nil, rArea]
    have e1 : r.miny + (r.maxy - r.miny) / 2 - r.miny = (r.maxy - r.miny) / 2 := by ring
    have e2 : r.maxy - (r.miny + (r.maxy - r.miny) / 2) = (r.maxy - r.miny) / 2 := by ring
    rw [e1, e2]
    rw [max_eq_right hw, max_eq_right hh, max_eq_right (by linarith : (0:ℚ) ≤ (r.maxy - r.miny) / 2)]
    ring
  · have hA : rInter r (katanaBoxA rBounds rBox r) =
        ⟨r.minx, r.miny, r.minx + (r.maxx - r.minx) / 2, r.maxy⟩ := by
      unfold katanaBoxA
      rw [if_neg hge]
      unfold rInter rBox gWidth rBounds
      simp only [id]
      rw [max_self, max_self, min_self, min_eq_right (by linarith)]
    have hB : rInter r (katanaBoxB rBounds rBox r) =
        ⟨r.minx + (r.maxx - r.minx) / 2, r.miny, r.maxx, r.maxy⟩ := by
      unfold katanaBoxB
      rw [if_neg hge]
      unfold rInter rBox gWidth rBounds
      simp only [id]
      rw [max_self, min_self, min_self, max_eq_right (by linarith)]
    rw [hA, hB]
    have hkA : rKind ⟨r.minx, r.miny, r.minx + (r.maxx - r.minx) / 2, r.maxy⟩ = .polygon := by
      unfold rKind
      rw [if_pos ⟨show r.minx ≤ r.minx + (r.maxx - r.minx) / 2 by linarith, hy⟩]
    have hkB : rKind ⟨r.minx + (r.maxx - r.minx) / 2, r.miny, r.maxx, r.maxy⟩ = .polygon := by
      unfold rKind
      rw [if_pos ⟨show r.minx + (r.maxx - r.minx) / 2 ≤ r.maxx by linarith, hy⟩]
    rw [if_pos hkA, if_pos hkB]
    simp only [List.map_cons, List.map_nil, List.sum_cons, List.sum_nil, rArea]
    have e1 : r.minx + (r.maxx - r.minx) / 2 - r.minx = (r.maxx - r.minx) / 2 := by ring
    have e2 : r.maxx - (r.minx + (r.maxx - r.minx) / 2) = (r.maxx - r.minx) / 2 := by ring
    rw [e1, e2]
    rw [max_eq_right hw, max_eq_right hh, max_eq_right (by linarith : (0:ℚ) ≤ (r.maxx - r.minx) / 2)]
    ring

/-- C5 (witness): the rectangle-model instantiation at a concrete input, with
the split hypothesis discharged by `rect_split_area`. -/
theorem c5_witness :
    ((katana rBounds rKind rGeoms rInter rBox (⟨0, 0, 0, 0⟩ : GBounds) 0).map rArea).sum =
      rArea ⟨0, 0, 0, 0⟩ := by
  refine c5_katana_area_preserved rBounds rKind rGeoms rInter rBox rArea ⟨0, 0, 0, 0⟩ 0
    (Or.inl (by decide)) (rect_split_area 0 le_rfl) ?_
  intro g hmp
  exact absurd hmp (rKind_ne_mp g)

theorem headsGo_strip (azi2 : ℚ → ℚ → ℚ → ℚ → ℚ) :
    ∀ (l : List Frame) (prev : Frame),
      (headsGo azi2 prev l).map stripHeading = l.map stripHeading := by
  intro l
  induction l with
  | nil => intro prev; simp [headsGo]
  | cons c cs ih => intro prev; simp [headsGo, ih, stripHeading]

theorem assign_headings_strip (azi2 : ℚ → ℚ → ℚ → ℚ → ℚ) (p : List Frame) :
    (assign_headings azi2 p).map stripHeading = p.map stripHeading := by
  match p with
  | [] => rfl
  | [f] => rfl
  | f0 :: f1 :: rest =>
    simp [assign_headings, headsGo_strip, stripHeading]

theorem assign_headings_length (azi2 : ℚ → ℚ → ℚ → ℚ → ℚ) (p : List Frame) :
    (assign_headings azi2 p).length = p.length := by
  have h := congrArg List.length (assign_headings_strip azi2 p)
  simpa using h

theorem headsGo_idx (azi2 : ℚ → ℚ → ℚ → ℚ → ℚ) :
    ∀ (l : List Frame) (prev : Frame),
      (headsGo azi2 prev l).map Frame.idx = l.map Frame.idx := by
  intro l
  induction l with
  | nil => intro prev; simp [headsGo]
  | cons c cs ih => intro prev; simp [headsGo, ih]

theorem assign_headings_idx (azi2 : ℚ → ℚ → ℚ → ℚ → ℚ) (p : List Frame) :
    (assign_headings azi2 p).map Frame.idx = p.map Frame.idx := by
  match p with
  | [] => rfl
  | [f] => rfl
  | f0 :: f1 :: rest => simp [assign_headings, headsGo_idx]

theorem map_getD_range (d : α) :
    ∀ l : List α, (List.range l.length).map (fun i => l.getD i d) = l := by
  intro l
  induction l with
  | nil => simp
  | cons a as ih =>
    rw [List.length_cons, List.range_succ_eq_map]
    simp only [List.map_cons, List.getD_cons_zero, List.map_map]
    have h2 : ((fun i => (a :: as).getD i d) ∘ (· + 1)) = fun i => as.getD i d := by
      funext i
      simp [List.getD_cons_succ]
    rw [h2, ih]

/-- Every element of a group produced by `groupByKey` is an input element. -/
theorem groupByKey_snd_subset [DecidableEq κ] (key : α → κ) (l : List α) :
    ∀ g ∈ groupByKey key l, ∀ x ∈ (g : κ × List α).2, x ∈ l := by
  intro g hg x hx
  have hmem : x ∈ (groupByKey key l).flatMap Prod.snd := List.mem_flatMap.mpr ⟨g, hg, hx⟩
  exact (groupByKey_flatten key l).mem_iff.mp hmem

theorem getD_mem_of_lt (seqs : List (List Frame)) (i : ℕ) (h : i < seqs.length) :
    seqs.getD i [] ∈ seqs := by
  rw [List.getD_eq_getElem seqs [] h]
  exact List.getElem_mem h

theorem flush_inv (merc : Position → ℚ × ℚ) (seqs : List (List Frame)) (st : CState)
    (hinv : ClusterInv seqs st) (hrem : st.remaining ≠ []) :
    ClusterInv seqs (clusterFlush merc seqs st) := by
  match h : st.remaining with
  | [] => exact absurd h hrem
  | r :: rs =>
    have hflush : clusterFlush merc seqs st =
        { remaining := rs
          clusters := st.clusters ++ [st.cluster]
          cluster := [seqs.getD r []]
          curSeq := r
          lastPos := merc ((seqs.getD r []).getLastD default).position
          clusterDone := false } := by
      unfold clusterFlush
      rw [h]
    have hrlt : r < seqs.length := hinv.rem_lt r (by rw [h]; exact List.mem_cons_self _ _)
    have hb := hinv.perm
    rw [h] at hb
    refine ⟨?_, ?_, ?_, ?_, ?_, ?_, ?_⟩ <;> rw [hflush]
    · simp only [List.flatten_append, List.flatten_cons, List.flatten_nil,
        List.append_nil, List.map_cons] at hb ⊢
      have heq : st.clusters.flatten ++ st.cluster ++ [seqs.getD r []] ++
          rs.map (fun i => seqs.getD i []) =
          st.clusters.flatten ++ (st.cluster ++ (seqs.getD r [] ::
            rs.map (fun i => seqs.getD i []))) := by
        simp [List.append_assoc]
      rw [heq]
      simpa [List.append_assoc] using hb
    · intro i hi
      exact hinv.rem_lt i (by rw [h]; exact List.mem_cons_of_mem _ hi)
    · exact hrlt
    · intro c hc
      rcases List.mem_append.mp hc with hc | hc
      · exact hinv.clusters_ne c hc
      · rcases List.mem_singleton.mp hc with rfl
        exact hinv.cluster_ne
    · simp
    · intro s hs
      rcases List.mem_singleton.mp hs with rfl
      exact getD_mem_of_lt seqs r hrlt
    · intro c hc s hs
      rcases List.mem_append.mp hc with hc | hc
      · exact hinv.clusters_mem c hc s hs
      · rcases List.mem_singleton.mp hc with rfl
        exact hinv.cluster_mem s hs

theorem tryCandidates_ok (azi2 : ℚ → ℚ → ℚ → ℚ → ℚ) (merc : Position → ℚ × ℚ)
    (seqs : List (List Frame)) (maxLag : ℤ) (maxAz : ℚ)
    (h2 : ∀ s ∈ seqs, 2 ≤ s.length) :
    ∀ (cand : List ℕ) (st : CState), ClusterInv seqs st →
      (∀ i ∈ cand, i ∈ st.remaining) →
      ∃ st2, tryCandidates azi2 merc seqs maxLag maxAz cand st = .ok st2 ∧
        ClusterInv seqs st2 := by
  intro cand
  induction cand with
  | nil => intro st hinv _; exact ⟨st, rfl, hinv⟩
  | cons i rest ih =>
    intro st hinv hsub
    have hi : i ∈ st.remaining := hsub i (List.mem_cons_self _ _)
    have hilt : i < seqs.length := hinv.rem_lt i hi
    have hlen_i : 2 ≤ (seqs.getD i []).length := by
      rw [List.getD_eq_getElem seqs [] hilt]
      exact h2 _ (List.getElem_mem hilt)
    have hlen_c : 2 ≤ (seqs.getD st.curSeq []).length := by
      rw [List.getD_eq_getElem seqs [] hinv.cur_lt]
      exact h2 _ (List.getElem_mem hinv.cur_lt)
    have hsome : seqs_azi_delta azi2 (seqs.getD st.curSeq []) (seqs.getD i []) =
        some (abs_angular_delta
          (azi2 ((seqs.getD st.curSeq []).getD ((seqs.getD st.curSeq []).length - 2)
              default).position.lat
            ((seqs.getD st.curSeq []).getD ((seqs.getD st.curSeq []).length - 2)
              default).position.lon
            ((seqs.getD st.curSeq []).getLastD default).position.lat
            ((seqs.getD st.curSeq []).getLastD default).position.lon)
          (azi2 ((seqs.getD i []).headD default).position.lat
            ((seqs.getD i []).headD default).position.lon
            ((seqs.getD i []).getD 1 default).position.lat
            ((seqs.getD i []).getD 1 default).position.lon)) := by
      unfold seqs_azi_delta
      rw [if_pos ⟨hlen_c, hlen_i⟩]
    simp only [tryCandidates]
    by_cases hlag : maxLag < seqs_lag (seqs.getD st.curSeq []) (seqs.getD i [])
    · rw [if_pos hlag]
      exact ⟨_, rfl, hinv.perm, hinv.rem_lt, hinv.cur_lt, hinv.clusters_ne,
        hinv.cluster_ne, hinv.cluster_mem, hinv.clusters_mem⟩
    · rw [if_neg hlag, hsome]
      dsimp only
      by_cases hmax : maxAz < abs_angular_delta
          (azi2 ((seqs.getD st.curSeq []).getD ((seqs.getD st.curSeq []).length - 2)
              default).position.lat
            ((seqs.getD st.curSeq []).getD ((seqs.getD st.curSeq []).length - 2)
              default).position.lon
            ((seqs.getD st.curSeq []).getLastD default).position.lat
            ((seqs.getD st.curSeq []).getLastD default).position.lon)
          (azi2 ((seqs.getD i []).headD default).position.lat
            ((seqs.getD i []).headD default).position.lon
            ((seqs.getD i []).getD 1 default).position.lat
            ((seqs.getD i []).getD 1 default).position.lon)
      · rw [if_pos hmax]
        exact ih st hinv (fun j hj => hsub j (List.mem_cons_of_mem _ hj))
      · rw [if_neg hmax]
        refine ⟨_, rfl, ?_, ?_, ?_, ?_, ?_, ?_, ?_⟩
        · have hre : List.Perm (st.remaining.map (fun j => seqs.getD j []))
              (seqs.getD i [] :: (st.remaining.erase i).map (fun j => seqs.getD j [])) := by
            have := (List.perm_cons_erase hi).map (fun j => seqs.getD j [])
            simpa using this
          have heq : st.clusters.flatten ++ (st.cluster ++ [seqs.getD i []]) ++
              (st.remaining.erase i).map (fun j => seqs.getD j []) =
              (st.clusters.flatten ++ st.cluster) ++ (seqs.getD i [] ::
                (st.remaining.erase i).map (fun j => seqs.getD j [])) := by
            simp [List.append_assoc]
          dsimp only
          rw [heq]
          exact List.Perm.trans (List.Perm.append_left _ hre.symm) hinv.perm
        · intro j hj
          exact hinv.rem_lt j (List.mem_of_mem_erase hj)
        · exact hilt
        · exact hinv.clusters_ne
        · simp
        · intro s hs
          rcases List.mem_append.mp hs with hs | hs
          · exact hinv.cluster_mem s hs
          · rcases List.mem_singleton.mp hs with rfl
            exact getD_mem_of_lt seqs i hilt
        · exact hinv.clusters_mem

theorem stepBody_ok (azi2 : ℚ → ℚ → ℚ → ℚ → ℚ) (merc : Position → ℚ × ℚ)
    (ball : List (List Frame) → ℚ × ℚ → ℚ → List ℕ)
    (seqs : List (List Frame)) (maxDist : ℚ) (maxLag : ℤ) (maxAz : ℚ)
    (h2 : ∀ s ∈ seqs, 2 ≤ s.length) (st : CState)
    (hinv : ClusterInv seqs st) (hrem : st.remaining ≠ []) :
    ∃ st2, stepBody azi2 merc ball seqs maxDist maxLag maxAz st = .ok st2 ∧
      ClusterInv seqs st2 := by
  unfold stepBody
  have hinv1 : ClusterInv seqs (if st.clusterDone then clusterFlush merc seqs st else st) := by
    split
    · exact flush_inv merc seqs st hinv hrem
    · exact hinv
  set st1 := if st.clusterDone then clusterFlush merc seqs st else st with hst1
  set cand := (ball seqs st1.lastPos maxDist).filter (fun i => decide (i ∈ st1.remaining))
    with hcand
  have hsub : ∀ i ∈ cand, i ∈ st1.remaining := by
    intro i hi
    rw [hcand] at hi
    exact of_decide_eq_true (List.mem_filter.mp hi).2
  by_cases hc : cand.isEmpty
  · rw [if_pos hc]
    exact ⟨_, rfl, hinv1.perm, hinv1.rem_lt, hinv1.cur_lt, hinv1.clusters_ne,
      hinv1.cluster_ne, hinv1.cluster_mem, hinv1.clusters_mem⟩
  · rw [if_neg hc]
    exact tryCandidates_ok azi2 merc seqs maxLag maxAz h2 cand st1 hinv1 hsub

theorem clusterLoop_cases (azi2 : ℚ → ℚ → ℚ → ℚ → ℚ) (merc : Position → ℚ × ℚ)
    (ball : List (List Frame) → ℚ × ℚ → ℚ → List ℕ)
    (seqs : List (List Frame)) (maxDist : ℚ) (maxLag : ℤ) (maxAz : ℚ)
    (h2 : ∀ s ∈ seqs, 2 ≤ s.length) :
    ∀ (fuel : ℕ) (st : CState), ClusterInv seqs st →
      clusterLoop azi2 merc ball seqs maxDist maxLag maxAz fuel st = .error .noFuel ∨
      ∃ st2, clusterLoop azi2 merc ball seqs maxDist maxLag maxAz fuel st = .ok st2 ∧
        ClusterInv seqs st2 ∧ st2.remaining = [] := by
  intro fuel
  induction fuel with
  | zero =>
    intro st hinv
    unfold clusterLoop
    by_cases hrem : st.remaining.isEmpty
    · right
      rw [if_pos hrem]
      exact ⟨st, rfl, hinv, List.isEmpty_iff.mp hrem⟩
    · left
      rw [if_neg hrem]
  | succ n ih =>
    intro st hinv
    unfold clusterLoop
    by_cases hrem : st.remaining.isEmpty
    · right
      rw [if_pos hrem]
      exact ⟨st, rfl, hinv, List.isEmpty_iff.mp hrem⟩
    · rw [if_neg hrem]
      obtain ⟨st2, hst2, hinv2⟩ := stepBody_ok azi2 merc ball seqs maxDist maxLag maxAz h2 st
        hinv (fun he => hrem (by rw [he]; rfl))
      rw [hst2]
      exact ih st2 hinv2

theorem cluster_seqs_init_inv (merc : Position → ℚ × ℚ) (s0 : List Frame)
    (rest : List (List Frame)) :
    ClusterInv (s0 :: rest)
      { remaining := (List.range (s0 :: rest).length).drop 1
        clusters := []
        cluster := [s0]
        curSeq := 0
        lastPos := merc (s0.getLastD default).position
        clusterDone := false } := by
  have hdrop : (List.range (s0 :: rest).length).drop 1 =
      (List.range rest.length).map (· + 1) := by
    rw [List.length_cons, List.range_succ_eq_map]
    rfl
  refine ⟨?_, ?_, ?_, ?_, ?_, ?_, ?_⟩
  · simp only [List.flatten_nil, List.nil_append, hdrop, List.map_map]
    have h2 : ((fun i => (s0 :: rest).getD i []) ∘ (· + 1)) =
        fun i => rest.getD i [] := by
      funext i
      simp [List.getD_cons_succ]
    rw [h2, map_getD_range]
    simp
  · intro i hi
    rw [hdrop] at hi
    rcases List.mem_map.mp hi with ⟨j, hj, rfl⟩
    have := List.mem_range.mp hj
    simp only [List.length_cons]
    omega
  · simp
  · intro c hc
    simp at hc
  · simp
  · intro s hs
    rcases List.mem_singleton.mp hs with rfl
    exact List.mem_cons_self _ _
  · intro c hc
    simp at hc

/-- Outcomes of `cluster_seqs` on a non-empty list of sequences of length at
least 2 each: either the loop runs out of fuel, or it returns clusters that
partition the input sequences. -/
theorem cluster_seqs_cases (azi2 : ℚ → ℚ → ℚ → ℚ → ℚ) (merc : Position → ℚ × ℚ)
    (ball : List (List Frame) → ℚ × ℚ → ℚ → List ℕ)
    (fuel : ℕ) (seqs : List (List Frame)) (maxDist : ℚ) (maxLag : ℤ) (maxAz : ℚ)
    (hne : seqs ≠ []) (h2 : ∀ s ∈ seqs, 2 ≤ s.length) :
    cluster_seqs azi2 merc ball fuel seqs maxDist maxLag maxAz = .error .noFuel ∨
    ∃ clusters, cluster_seqs azi2 merc ball fuel seqs maxDist maxLag maxAz = .ok clusters ∧
      List.Perm clusters.flatten seqs ∧
      ∀ c ∈ clusters, c ≠ [] ∧ ∀ s ∈ c, s ∈ seqs := by
  unfold cluster_seqs
  by_cases h1 : seqs.length = 1
  · right
    rw [if_pos h1]
    refine ⟨[seqs], rfl, by simp, ?_⟩
    intro c hc
    rcases List.mem_singleton.mp hc with rfl
    exact ⟨hne, fun s hs => hs⟩
  · rw [if_neg h1]
    match seqs, hne with
    | s0 :: rest, _ =>
      dsimp only
      have hinit := cluster_seqs_init_inv merc s0 rest
      rcases clusterLoop_cases azi2 merc ball (s0 :: rest) maxDist maxLag maxAz h2 fuel _
        hinit with hcase | ⟨st2, hok, hinv2, hrem2⟩
      · left
        rw [hcase]
        rfl
      · right
        refine ⟨st2.clusters ++ [st2.cluster], by rw [hok]; rfl, ?_, ?_⟩
        · have hp := hinv2.perm
          rw [hrem2] at hp
          simp only [List.map_nil, List.append_nil] at hp
          simpa [List.flatten_append] using hp
        · intro c hc
          rcases List.mem_append.mp hc with hc | hc
          · exact ⟨hinv2.clusters_ne c hc, hinv2.clusters_mem c hc⟩
          · rcases List.mem_singleton.mp hc with rfl
            exact ⟨hinv2.cluster_ne, hinv2.cluster_mem⟩

/-! ## Day-group and single-sequence helpers -/

theorem groupByKey_const_aux [DecidableEq κ] (key : α → κ) (k : κ) :
    ∀ (l : List α) (pre : List α), (∀ y ∈ l, key y = k) →
      l.foldl (addToGroups key) [(k, pre)] = [(k, pre ++ l)] := by
  intro l
  induction l with
  | nil => intro pre _; simp
  | cons y ys ih =>
    intro pre h
    have hk : k = key y := (h y (List.mem_cons_self _ _)).symm
    simp only [List.foldl_cons, addToGroups, if_pos hk]
    rw [ih (pre ++ [y]) (fun z hz => h z (List.mem_cons_of_mem _ hz))]
    simp

/-- When every element has the same key, grouping yields a single group. -/
theorem groupByKey_const [DecidableEq κ] (key : α → κ) (k : κ) (l : List α)
    (hne : l ≠ []) (h : ∀ y ∈ l, key y = k) : groupByKey key l = [(k, l)] := by
  match l, hne with
  | x :: xs, _ =>
    have hx : key x = k := h x (List.mem_cons_self _ _)
    unfold groupByKey
    simp only [List.foldl_cons, addToGroups, hx]
    rw [groupByKey_const_aux key k xs [x] (fun z hz => h z (List.mem_cons_of_mem _ hz))]
    simp

theorem clusterAll_single (azi2 : ℚ → ℚ → ℚ → ℚ → ℚ) (merc : Position → ℚ × ℚ)
    (ball : List (List Frame) → ℚ × ℚ → ℚ → List ℕ)
    (fuel : ℕ) (maxDist : ℚ) (maxLag : ℤ) (maxAz : ℚ) (s : List Frame) :
    clusterAll azi2 merc ball fuel maxDist maxLag maxAz [[s]] = .ok [[s]] := by
  unfold clusterAll cluster_seqs
  simp [clusterAll]

theorem flatten_len_ge (c : List (List Frame)) (hne : c ≠ [])
    (h : ∀ s ∈ c, 2 ≤ s.length) : 2 ≤ c.flatten.length := by
  match c, hne with
  | s :: rest, _ =>
    have hs := h s (List.mem_cons_self _ _)
    simp only [List.flatten_cons, List.length_append]
    omega

theorem strip_flatten_assign (azi2 : ℚ → ℚ → ℚ → ℚ → ℚ) :
    ∀ X : List (List Frame),
      ((X.map (assign_headings azi2)).flatten).map stripHeading =
        (X.flatten).map stripHeading := by
  intro X
  induction X with
  | nil => simp
  | cons p ps ih =>
    simp only [List.map_cons, List.flatten_cons, List.map_append, ih,
      assign_headings_strip]

theorem flatten_map_flatten : ∀ l : List (List (List Frame)),
    (l.map List.flatten).flatten = l.flatten.flatten := by
  intro l
  induction l with
  | nil => simp
  | cons c cs ih => simp [List.flatten_append, ih]

theorem flatten_map_perm {β : Type} (f : List β → List β) (hf : ∀ g, List.Perm (f g) g) :
    ∀ gs : List (List β), List.Perm (gs.map f).flatten gs.flatten := by
  intro gs
  induction gs with
  | nil => simp
  | cons g rest ih =>
    simp only [List.map_cons, List.flatten_cons]
    exact List.Perm.append (hf g) ih

theorem stitchSeqs_len (frames : List Frame) :
    ∀ s ∈ stitchSeqs frames, 2 ≤ s.length := by
  intro s hs
  unfold stitchSeqs at hs
  rcases List.mem_map.mp hs with ⟨s0, hs0, rfl⟩
  have h1 : 1 < s0.length := by
    have := (List.mem_filter.mp hs0).2
    exact of_decide_eq_true this
  have hlen := (sortByKey_perm (fun f => f.idx) s0).length_eq
  omega

theorem stitchDayGroups_props (dayOf : Position → ℤ → ℤ) (frames : List Frame) :
    ∀ g ∈ stitchDayGroups dayOf frames, g ≠ [] ∧ ∀ s ∈ g, 2 ≤ s.length := by
  intro g hg
  unfold stitchDayGroups at hg
  rcases List.mem_map.mp hg with ⟨g0, hg0, rfl⟩
  rcases List.mem_map.mp hg0 with ⟨gr, hgr, rfl⟩
  have hperm := sortByKey_perm (fun s => (s.headD default).timestamp) gr.2
  constructor
  · intro hc
    have hgr2 := hperm.symm
    rw [hc] at hgr2
    exact groupByKey_snd_ne_nil _ _ gr hgr hgr2.eq_nil
  · intro s hs
    have hmem : s ∈ gr.2 := hperm.mem_iff.mp hs
    have : s ∈ stitchSeqs frames := groupByKey_snd_subset _ _ gr hgr s hmem
    exact stitchSeqs_len frames s this

theorem stitchDayGroups_flatten_perm (dayOf : Position → ℤ → ℤ) (frames : List Frame) :
    List.Perm (stitchDayGroups dayOf frames).flatten (stitchSeqs frames) := by
  unfold stitchDayGroups
  refine List.Perm.trans
    (flatten_map_perm (sortByKey (fun s : List Frame => (s.headD default).timestamp))
      (fun g => sortByKey_perm _ g) _) ?_
  rw [← List.flatMap_def]
  exact groupByKey_flatten _ _

theorem clusterAll_cases (azi2 : ℚ → ℚ → ℚ → ℚ → ℚ) (merc : Position → ℚ × ℚ)
    (ball : List (List Frame) → ℚ × ℚ → ℚ → List ℕ)
    (fuel : ℕ) (maxDist : ℚ) (maxLag : ℤ) (maxAz : ℚ) :
    ∀ gs : List (List (List Frame)),
      (∀ g ∈ gs, g ≠ [] ∧ ∀ s ∈ g, 2 ≤ s.length) →
      clusterAll azi2 merc ball fuel maxDist maxLag maxAz gs = .error .noFuel ∨
      ∃ cs, clusterAll azi2 merc ball fuel maxDist maxLag maxAz gs = .ok cs ∧
        List.Perm cs.flatten gs.flatten ∧
        ∀ c ∈ cs, c ≠ [] ∧ ∀ s ∈ c, 2 ≤ s.length := by
  intro gs
  induction gs with
  | nil =>
    intro _
    right
    exact ⟨[], rfl, by simp, by simp⟩
  | cons g rest ih =>
    intro h
    have hg := h g (List.mem_cons_self _ _)
    unfold clusterAll
    rcases cluster_seqs_cases azi2 merc ball fuel g maxDist maxLag maxAz hg.1
      (fun s hs => hg.2 s hs) with herr | ⟨cls, hok, hperm, hprops⟩
    · left
      rw [herr]
    · rw [hok]
      rcases ih (fun g' hg' => h g' (List.mem_cons_of_mem _ hg')) with herr2 | ⟨cs2, hok2, hperm2, hprops2⟩
      · left
        rw [herr2]
      · rw [hok2]
        right
        refine ⟨cls ++ cs2, rfl, ?_, ?_⟩
        · rw [List.flatten_append, List.flatten_cons]
          exact List.Perm.append hperm hperm2
        · intro c hc
          rcases List.mem_append.mp hc with hc | hc
          · refine ⟨(hprops c hc).1, ?_⟩
            intro s hs
            exact hg.2 s ((hprops c hc).2 s hs)
          · exact hprops2 c hc

/-! ## Claim C6 -/

/-- C6: when all frames share one sequence id, `stitch` returns exactly one
path, holding all the input frames (modulo the heading written by the
post-process) sorted by ascending `idx`. -/
theorem c6_single_sequence (azi2 : ℚ → ℚ → ℚ → ℚ → ℚ) (merc : Position → ℚ × ℚ)
    (ball : List (List Frame) → ℚ × ℚ → ℚ → List ℕ) (dayOf : Position → ℤ → ℤ)
    (fuel : ℕ) (maxDist : ℚ) (maxLag : ℤ) (maxAz : ℚ)
    (frames : List Frame) (s0 : ℕ)
    (hne : frames ≠ []) (hseq : ∀ f ∈ frames, f.sequence = s0) :
    stitch azi2 merc ball dayOf fuel frames maxDist maxLag maxAz =
      .ok [assign_headings azi2 (sortByKey (fun f => f.idx)
        (sortByKey (fun f => f.timestamp) frames))] ∧
    List.Pairwise (fun a b => a.idx ≤ b.idx)
      (assign_headings azi2 (sortByKey (fun f => f.idx)
        (sortByKey (fun f => f.timestamp) frames))) ∧
    List.Perm ((assign_headings azi2 (sortByKey (fun f => f.idx)
      (sortByKey (fun f => f.timestamp) frames))).map stripHeading)
      (frames.map stripHeading) := by
  have hLperm : List.Perm (sortByKey (fun f => f.timestamp) frames) frames :=
    sortByKey_perm _ frames
  have hLne : sortByKey (fun f => f.timestamp) frames ≠ [] := by
    intro hc
    rw [hc] at hLperm
    exact hne hLperm.symm.eq_nil
  have hLseq : ∀ f ∈ sortByKey (fun f => f.timestamp) frames, f.sequence = s0 :=
    fun f hf => hseq f (hLperm.mem_iff.mp hf)
  have hgroup : groupByKey (fun f => f.sequence) (sortByKey (fun f => f.timestamp) frames) =
      [(s0, sortByKey (fun f => f.timestamp) frames)] :=
    groupByKey_const _ s0 _ hLne hLseq
  have hemp : frames.isEmpty = false := by
    cases frames with
    | nil => exact absurd rfl hne
    | cons a as => rfl
  have hpair : List.Pairwise (fun a b => a.idx ≤ b.idx)
      (assign_headings azi2 (sortByKey (fun f => f.idx)
        (sortByKey (fun f => f.timestamp) frames))) := by
    have hp0 := sortByKey_pairwise (fun f => f.idx) (sortByKey (fun f => f.timestamp) frames)
    have hmapeq := assign_headings_idx azi2
      (sortByKey (fun f => f.idx) (sortByKey (fun f => f.timestamp) frames))
    have hp1 : List.Pairwise (· ≤ ·)
        ((sortByKey (fun f => f.idx) (sortByKey (fun f => f.timestamp) frames)).map
          Frame.idx) := List.pairwise_map.mpr hp0
    rw [← hmapeq] at hp1
    exact List.pairwise_map.mp hp1
  have hperm3 : List.Perm ((assign_headings azi2 (sortByKey (fun f => f.idx)
      (sortByKey (fun f => f.timestamp) frames))).map stripHeading)
      (frames.map stripHeading) := by
    rw [assign_headings_strip]
    exact ((sortByKey_perm _ _).trans hLperm).map stripHeading
  refine ⟨?_, hpair, hperm3⟩
  by_cases h1 : 1 < (sortByKey (fun f => f.timestamp) frames).length
  · have hseqs : stitchSeqs frames =
        [sortByKey (fun f => f.idx) (sortByKey (fun f => f.timestamp) frames)] := by
      unfold stitchSeqs
      rw [hgroup]
      simp [h1]
    have hskip : stitchSkip frames = [] := by
      unfold stitchSkip
      rw [hgroup]
      simp [h1]
    have hdg : stitchDayGroups dayOf frames =
        [[sortByKey (fun f => f.idx) (sortByKey (fun f => f.timestamp) frames)]] := by
      unfold stitchDayGroups
      rw [hseqs]
      rfl
    unfold stitch
    rw [if_neg (by simp [hemp]), hdg, clusterAll_single, hskip]
    simp
  · have hseqs : stitchSeqs frames = [] := by
      unfold stitchSeqs
      rw [hgroup]
      simp [h1]
    have hskip : stitchSkip frames = [[sortByKey (fun f => f.timestamp) frames]] := by
      unfold stitchSkip
      rw [hgroup]
      simp [h1]
    have hdg : stitchDayGroups dayOf frames = [] := by
      unfold stitchDayGroups
      rw [hseqs]
      rfl
    obtain ⟨f, hf⟩ : ∃ f, sortByKey (fun f => f.timestamp) frames = [f] := by
      cases hL : sortByKey (fun f => f.timestamp) frames with
      | nil => exact absurd hL hLne
      | cons f rest =>
        cases rest with
        | nil => exact ⟨f, rfl⟩
        | cons g rest2 =>
          rw [hL] at h1
          simp at h1
    unfold stitch
    rw [if_neg (by simp [hemp]), hdg, hskip]
    have hca : clusterAll azi2 merc ball fuel maxDist maxLag maxAz [] = .ok [] := rfl
    rw [hca]
    rw [hf]
    simp [assign_headings, sortByKey, sInsert]

/-- C6 (witness): the two-frame single-sequence input. -/
theorem c6_witness :
    stitch aziEq2 exMerc exBall exDayOf 0 [exF0, exF1] DEFAULT_STITCH_MAX_DISTANCE
      DEFAULT_STITCH_MAX_LAG DEFAULT_STITCH_MAX_ANGLE =
      .ok [assign_headings aziEq2 (sortByKey (fun f => f.idx)
        (sortByKey (fun f => f.timestamp) [exF0, exF1]))] ∧
    List.Pairwise (fun a b => a.idx ≤ b.idx)
      (assign_headings aziEq2 (sortByKey (fun f => f.idx)
        (sortByKey (fun f => f.timestamp) [exF0, exF1]))) ∧
    List.Perm ((assign_headings aziEq2 (sortByKey (fun f => f.idx)
      (sortByKey (fun f => f.timestamp) [exF0, exF1]))).map stripHeading)
      ([exF0, exF1].map stripHeading) :=
  c6_single_sequence aziEq2 exMerc exBall exDayOf 0 DEFAULT_STITCH_MAX_DISTANCE
    DEFAULT_STITCH_MAX_LAG DEFAULT_STITCH_MAX_ANGLE [exF0, exF1] 0
    (by decide) (by decide)

theorem flatten_map_singleton : ∀ l : List (List Frame),
    (l.map (fun s => [s])).flatten = l := by
  intro l
  induction l with
  | nil => simp
  | cons a as ih => simp [ih]

theorem filter_split_of_append (st sk : List (List Frame))
    (hst : ∀ p ∈ st, 2 ≤ p.length) (hsk : ∀ p ∈ sk, p.length = 1) :
    st ++ sk = (st ++ sk).filter (fun p => decide (2 ≤ p.length)) ++
      (st ++ sk).filter (fun p => decide (p.length = 1)) := by
  rw [List.filter_append, List.filter_append]
  have e1 : st.filter (fun p => decide (2 ≤ p.length)) = st :=
    List.filter_eq_self.mpr (fun p hp => decide_eq_true (hst p hp))
  have e2 : sk.filter (fun p => decide (2 ≤ p.length)) = [] :=
    List.filter_eq_nil_iff.mpr (fun p hp h => by
      have := of_decide_eq_true h
      have := hsk p hp
      omega)
  have e3 : st.filter (fun p => decide (p.length = 1)) = [] :=
    List.filter_eq_nil_iff.mpr (fun p hp h => by
      have := of_decide_eq_true h
      have := hst p hp
      omega)
  have e4 : sk.filter (fun p => decide (p.length = 1)) = sk :=
    List.filter_eq_self.mpr (fun p hp => decide_eq_true (hsk p hp))
  rw [e1, e2, e3, e4]
  simp

/-! ## Claim C9 -/

/-- C9: the frames of the paths returned by `stitch` form a partition of the
input frames (modulo the heading written by the post-process): no frame is
dropped, duplicated, or invented; moreover every returned path is either a
multi-frame stitched path (length ≥ 2) or a one-frame singleton path, with
all singleton paths appended after the stitched ones. -/
theorem c9_stitch_partition (azi2 : ℚ → ℚ → ℚ → ℚ → ℚ) (merc : Position → ℚ × ℚ)
    (ball : List (List Frame) → ℚ × ℚ → ℚ → List ℕ) (dayOf : Position → ℤ → ℤ)
    (fuel : ℕ) (frames : List Frame) (maxDist : ℚ) (maxLag : ℤ) (maxAz : ℚ)
    (paths : List (List Frame))
    (hok : stitch azi2 merc ball dayOf fuel frames maxDist maxLag maxAz = .ok paths) :
    paths = paths.filter (fun p => decide (2 ≤ p.length)) ++
      paths.filter (fun p => decide (p.length = 1)) ∧
    List.Perm (paths.flatten.map stripHeading) (frames.map stripHeading) := by
  by_cases hemp : frames.isEmpty = true
  · have hfr : frames = [] := List.isEmpty_iff.mp hemp
    subst hfr
    have hp : paths = [] := by
      simp [stitch] at hok
      exact hok
    subst hp
    exact ⟨rfl, by simp⟩
  · unfold stitch at hok
    rw [if_neg (by simp at hemp ⊢; exact hemp)] at hok
    rcases clusterAll_cases azi2 merc ball fuel maxDist maxLag maxAz
      (stitchDayGroups dayOf frames) (stitchDayGroups_props dayOf frames) with
      herr | ⟨cs, hca, hperm, hprops⟩
    · rw [herr] at hok
      simp at hok
    · rw [hca] at hok
      dsimp only at hok
      have hpaths : (cs.map (fun c => c.flatten)).map (assign_headings azi2) ++
          (stitchSkip frames).map (fun c => c.flatten) = paths := by
        injection hok
      have hst : ∀ p ∈ (cs.map (fun c => c.flatten)).map (assign_headings azi2),
          2 ≤ p.length := by
        intro p hp
        rcases List.mem_map.mp hp with ⟨q, hq, rfl⟩
        rcases List.mem_map.mp hq with ⟨c, hc, rfl⟩
        rw [assign_headings_length]
        exact flatten_len_ge c (hprops c hc).1 (hprops c hc).2
      have hsk : ∀ p ∈ (stitchSkip frames).map (fun c => c.flatten),
          p.length = 1 := by
        intro p hp
        rcases List.mem_map.mp hp with ⟨cl, hcl, rfl⟩
        unfold stitchSkip at hcl
        rcases List.mem_map.mp hcl with ⟨sq, hsq, rfl⟩
        have hle : ¬ 1 < sq.length := by
          have h := (List.mem_filter.mp hsq).2
          simp at h
          omega
        have hne2 : sq ≠ [] := by
          rcases List.mem_map.mp (List.mem_filter.mp hsq).1 with ⟨gr, hgr, rfl⟩
          exact groupByKey_snd_ne_nil _ _ gr hgr
        have h1 : 1 ≤ sq.length := by
          cases sq with
          | nil => exact absurd rfl hne2
          | cons a as => simp
        simp only [List.flatten_cons, List.flatten_nil, List.append_nil]
        omega
      constructor
      · rw [← hpaths]
        exact filter_split_of_append _ _ hst hsk
      · rw [← hpaths]
        rw [List.flatten_append, List.map_append]
        have hA : ((((cs.map (fun c => c.flatten)).map (assign_headings azi2)).flatten).map
            stripHeading) = ((cs.map (fun c => c.flatten)).flatten).map stripHeading :=
          strip_flatten_assign azi2 _
        rw [hA]
        have hAeq : ((cs.map (fun c => c.flatten)).flatten) = cs.flatten.flatten :=
          flatten_map_flatten cs
        have hBeq : (((stitchSkip frames).map (fun c => c.flatten)).flatten) =
            (stitchSkip frames).flatten.flatten := flatten_map_flatten _
        rw [hAeq, hBeq]
        have hBflat : (stitchSkip frames).flatten =
            (((groupByKey (fun f => f.sequence) (sortByKey (fun f => f.timestamp)
              frames)).map Prod.snd).filter (fun s => ! decide (1 < s.length))) := by
          unfold stitchSkip
          exact flatten_map_singleton _
        rw [hBflat]
        -- stitched frames: clusters ~ day groups ~ multi-frame sequences
        have hA1 : List.Perm cs.flatten.flatten
            (stitchDayGroups dayOf frames).flatten.flatten := hperm.flatten
        have hA2 : List.Perm (stitchDayGroups dayOf frames).flatten.flatten
            (stitchSeqs frames).flatten := (stitchDayGroups_flatten_perm dayOf frames).flatten
        have hA3 : List.Perm (stitchSeqs frames).flatten
            ((((groupByKey (fun f => f.sequence) (sortByKey (fun f => f.timestamp)
              frames)).map Prod.snd).filter (fun s => decide (1 < s.length))).flatten) := by
          unfold stitchSeqs
          exact flatten_map_perm (sortByKey (fun f : Frame => f.idx))
            (fun g => sortByKey_perm _ g) _
        have hfilters : List.Perm
            (((((groupByKey (fun f => f.sequence) (sortByKey (fun f => f.timestamp)
              frames)).map Prod.snd).filter (fun s => decide (1 < s.length))) ++
             ((((groupByKey (fun f => f.sequence) (sortByKey (fun f => f.timestamp)
              frames)).map Prod.snd).filter (fun s => ! decide (1 < s.length))))).flatten)
            (((groupByKey (fun f => f.sequence) (sortByKey (fun f => f.timestamp)
              frames)).map Prod.snd).flatten) :=
          (List.filter_append_perm _ _).flatten
        have hall : List.Perm
            (((groupByKey (fun f => f.sequence) (sortByKey (fun f => f.timestamp)
              frames)).map Prod.snd).flatten) frames := by
          rw [← List.flatMap_def]
          exact (groupByKey_flatten _ _).trans (sortByKey_perm _ frames)
        have hcomb : List.Perm (cs.flatten.flatten ++
            (((groupByKey (fun f => f.sequence) (sortByKey (fun f => f.timestamp)
              frames)).map Prod.snd).filter (fun s => ! decide (1 < s.length))).flatten)
            frames := by
          refine List.Perm.trans (List.Perm.append_right _
            ((hA1.trans hA2).trans hA3)) ?_
          rw [← List.flatten_append]
          exact hfilters.trans hall
        rw [← List.map_append]
        exact hcomb.map stripHeading

/-- C9 (witness): the concrete two-sequence run. -/
theorem c9_witness :
    c9Paths = c9Paths.filter (fun p => decide (2 ≤ p.length)) ++
      c9Paths.filter (fun p => decide (p.length = 1)) ∧
    List.Perm (c9Paths.flatten.map stripHeading) (c9Frames.map stripHeading) :=
  c9_stitch_partition aziEq2 exMerc exBall exDayOf 6 c9Frames
    DEFAULT_STITCH_MAX_DISTANCE DEFAULT_STITCH_MAX_LAG DEFAULT_STITCH_MAX_ANGLE
    c9Paths (by decide)

/-! ## Claim C10 -/

/-- C10: every sequence `stitch` hands to `cluster_seqs` (via the per-day
groups) has at least 2 frames — single-frame sequences are diverted to
`skip_stitching` — so the accesses `seq_a[-2]`, `seq_a[-1]`, `seq_b[0]`,
`seq_b[1]` inside `seqs_azi_delta` are always in bounds and its out-of-range
error (`StitchErr.idxErr` in the embedding) is unreachable from `stitch`. -/
theorem c10_azi_delta_safe (azi2 : ℚ → ℚ → ℚ → ℚ → ℚ) (merc : Position → ℚ × ℚ)
    (ball : List (List Frame) → ℚ × ℚ → ℚ → List ℕ) (dayOf : Position → ℤ → ℤ)
    (fuel : ℕ) (frames : List Frame) (maxDist : ℚ) (maxLag : ℤ) (maxAz : ℚ) :
    (∀ g ∈ stitchDayGroups dayOf frames, ∀ s ∈ g, 2 ≤ s.length) ∧
    stitch azi2 merc ball dayOf fuel frames maxDist maxLag maxAz ≠ .error .idxErr := by
  constructor
  · intro g hg
    exact (stitchDayGroups_props dayOf frames g hg).2
  · intro hcontra
    unfold stitch at hcontra
    by_cases hemp : frames.isEmpty = true
    · rw [if_pos hemp] at hcontra
      exact absurd hcontra (by simp)
    · rw [if_neg (by simp at hemp ⊢; exact hemp)] at hcontra
      rcases clusterAll_cases azi2 merc ball fuel maxDist maxLag maxAz
        (stitchDayGroups dayOf frames) (stitchDayGroups_props dayOf frames) with
        herr | ⟨cs, hca, _, _⟩
      · rw [herr] at hcontra
        simp at hcontra
      · rw [hca] at hcontra
        simp at hcontra

end HivePy
